import Mathlib

/-!
Verification development for the `zpet` Zephyr-bot framework
(`src/command.rs`, `src/bot.rs`, `src/zephyr.rs`).

Strings are modelled as `List Char` (the Rust code only ever manipulates
ASCII here, where byte length and char count coincide).  The `regex` crate
is an external collaborator; its leftmost-first (Perl-like) matching
semantics with greedy repetition is modelled by a priority-ordered
backtracking matcher over a small AST.  Each of the source's regular
expressions is transcribed into that AST token by token.
-/

set_option maxRecDepth 4000

abbrev Str := List Char

/-- Literal Lean strings, converted to the `List Char` model. -/
def str (s : String) : Str := s.data

/-! ### Character classes appearing in the source regexes -/

/-- The class `[\w]` (ASCII fragment of the regex crate's `\w`). -/
def isW (c : Char) : Bool := c.isAlphanum || c = '_'

/-- A literal space ` ` in a regex. -/
def isSp (c : Char) : Bool := c = ' '

/-- The class `[.!]`. -/
def isDotBang (c : Char) : Bool := c = '.' || c = '!'

/-- The class `[ \w]`. -/
def isSpW (c : Char) : Bool := c = ' ' || isW c

/-- The class `[\w-.]` (word chars, literal dash and dot). -/
def isWdd (c : Char) : Bool := isW c || c = '-' || c = '.'

/-- The class `[^']`. -/
def isNotQuote (c : Char) : Bool := c ≠ Char.ofNat 39

/-- Rust `char::is_whitespace` (ASCII fragment). -/
def isWhite (c : Char) : Bool := c.isWhitespace

/-! ### Generic string helpers used by the source -/

/-- Split on every char satisfying `p` (used both for Rust's
`str::split(sep)` and for the regex `[ \0]` split in `wrap_lines`):
keeps empty pieces, never returns an empty list. -/
def splitPred (p : Char → Bool) : Str → List Str
  | [] => [[]]
  | c :: s =>
    if p c then [] :: splitPred p s
    else
      match splitPred p s with
      | l :: ls => (c :: l) :: ls
      | [] => [[c]]

/-- Rust's `str::split(sep)` for a one-char separator. -/
def splitChar (sep : Char) : Str → List Str := splitPred (fun c => c = sep)

/-- Apply `f` to the last element of a list. -/
def modifyLast (f : Str → Str) : List Str → List Str
  | [] => []
  | [x] => [f x]
  | x :: y :: xs => x :: modifyLast f (y :: xs)

/-- Rust `Vec::<String>::join("\n")`. -/
def joinNl : List Str → Str
  | [] => []
  | [l] => l
  | l :: ls => l ++ '\n' :: joinNl ls

/-- Rust `str::trim`. -/
def trimStr (s : Str) : Str :=
  ((s.dropWhile isWhite).reverse.dropWhile isWhite).reverse

/-- Rust `val.replace("\n", "\n\0")`. -/
def replaceNl (s : Str) : Str :=
  s.flatMap (fun c => if c = '\n' then ['\n', Char.ofNat 0] else [c])

/-- Separator class of the `wrap_lines` split regex `[ \0]`. -/
def isWrapSep (c : Char) : Bool := c = ' ' || c = Char.ofNat 0

/-! ### Regex engine

A tiny priority-ordered backtracking matcher.  Repetition only ever occurs
over single-character classes in the source patterns, so `starC`/`plusC`
are primitive, which keeps every definition structurally recursive.
Result lists are ordered by the backtracking priority of a Perl-style
engine (greedy repetitions longest first, left alternative first), so the
head of the list is the match the `regex` crate reports.
-/

/-- Names of capture groups used by the source patterns: `self`, `cmd`,
and the numbered argument groups `(?P<0>…)`, `(?P<1>…)`. -/
inductive GName where
  | self
  | cmd
  | num (i : Nat)
deriving DecidableEq

abbrev Caps := List (GName × Str)

inductive RE where
  | eps
  | cls (p : Char → Bool)
  | starC (p : Char → Bool)
  | plusC (p : Char → Bool)
  | seq (a b : RE)
  | alt (a b : RE)
  | opt (a : RE)
  | grp (g : GName) (a : RE)
  | bol
  | eol

/-- All ways a greedy `p*` can consume a prefix, longest first. -/
def starSplits (p : Char → Bool) (s : Str) : List (Str × Str) :=
  let t := s.takeWhile p
  let r := s.dropWhile p
  ((List.range (t.length + 1)).reverse).map (fun k => (t.take k, t.drop k ++ r))

/-- Priority-ordered match results: captures, new absolute position, and
remaining input.  `pos` is the absolute position of `s` in the haystack
(used by `^`). -/
def reMatch : RE → Nat → Str → List (Caps × Nat × Str)
  | .eps, pos, s => [([], pos, s)]
  | .cls _, _, [] => []
  | .cls p, pos, c :: t => if p c then [([], pos + 1, t)] else []
  | .starC p, pos, s =>
      (starSplits p s).map (fun tr => ([], pos + tr.1.length, tr.2))
  | .plusC p, pos, s =>
      ((starSplits p s).filter (fun tr => tr.1 ≠ [])).map
        (fun tr => ([], pos + tr.1.length, tr.2))
  | .seq a b, pos, s =>
      (reMatch a pos s).flatMap (fun x =>
        (reMatch b x.2.1 x.2.2).map (fun y => (x.1 ++ y.1, y.2.1, y.2.2)))
  | .alt a b, pos, s => reMatch a pos s ++ reMatch b pos s
  | .opt a, pos, s => reMatch a pos s ++ [([], pos, s)]
  | .grp g a, pos, s =>
      (reMatch a pos s).map (fun x => (x.1 ++ [(g, s.take (x.2.1 - pos))], x.2.1, x.2.2))
  | .bol, pos, s => if pos = 0 then [([], pos, s)] else []
  | .eol, pos, s => if s = [] then [([], pos, s)] else []

/-- Leftmost search: try each start position in order; at the first
position with a match, report the highest-priority one
(`Regex::captures`). -/
def reSearch (re : RE) (pos : Nat) (s : Str) : Option Caps :=
  match reMatch re pos s with
  | r :: _ => some r.1
  | [] =>
    match s with
    | [] => none
    | _ :: t => reSearch re (pos + 1) t

/-- `Regex::captures` over the whole haystack. -/
def reCaptures (re : RE) (s : Str) : Option Caps := reSearch re 0 s

/-- `Captures::name`: first binding of a group name. -/
def capsFind : Caps → GName → Option Str
  | [], _ => none
  | (g, v) :: t, g2 => if g = g2 then some v else capsFind t g2

/-- Sequence a list of regex tokens (linearisation helper used to write
each source pattern token by token). -/
def rcat (l : List RE) : RE := l.foldr RE.seq RE.eps

/-- A literal character in a regex. -/
def lit (ch : Char) : RE := RE.cls (fun c => c = ch)

/-- The alternation `(?:->|\.|#|::)`. -/
def sepAlt : RE :=
  RE.alt (rcat [lit '-', lit '>'])
    (RE.alt (lit '.') (RE.alt (lit '#') (rcat [lit ':', lit ':'])))

/-! ### The shape library (`Shape::order` … `Shape::do_with`) -/

structure Shape where
  patterns : List RE

/-- `"^(?P<self>[\\w]+) *, *(?P<cmd>[\\w]+) *[.!]?$"` and
`"^(?P<cmd>[\\w]+) *, *(?P<self>[\\w]+) *[.!]?$"`. -/
def Shape.order : Shape :=
  ⟨[rcat [.bol, .grp .self (.plusC isW), .starC isSp, lit ',', .starC isSp,
          .grp .cmd (.plusC isW), .starC isSp, .opt (.cls isDotBang), .eol],
    rcat [.bol, .grp .cmd (.plusC isW), .starC isSp, lit ',', .starC isSp,
          .grp .self (.plusC isW), .starC isSp, .opt (.cls isDotBang), .eol]]⟩

/-- `"^(?P<self>[\\w]+) *, *(?P<cmd>[\\w]+) +(?P<0>[\\w]+) *[.!]?$"` and
`"^(?P<cmd>[\\w]+) +(?P<0>[\\w]+) *, *(?P<self>[\\w]+) *[.!]?$"`. -/
def Shape.unary_order : Shape :=
  ⟨[rcat [.bol, .grp .self (.plusC isW), .starC isSp, lit ',', .starC isSp,
          .grp .cmd (.plusC isW), .plusC isSp, .grp (.num 0) (.plusC isW),
          .starC isSp, .opt (.cls isDotBang), .eol],
    rcat [.bol, .grp .cmd (.plusC isW), .plusC isSp, .grp (.num 0) (.plusC isW),
          .starC isSp, lit ',', .starC isSp, .grp .self (.plusC isW),
          .starC isSp, .opt (.cls isDotBang), .eol]]⟩

/-- The four `invoke` spellings. -/
def Shape.invoke : Shape :=
  ⟨[rcat [.bol, .grp .self (.plusC isW), .starC isSp, lit '(',
          .grp .cmd (.plusC isSpW), lit ')', .eol],
    rcat [.bol, .grp .cmd (.plusC isSpW), lit 's', .plusC isSp,
          .grp .self (.plusC isW), .eol],
    rcat [.bol, .grp .self (.plusC isW), .starC isSp, lit '-', lit '>',
          .starC isSp, lit '{', .grp .cmd (.plusC isSpW), lit '}', .eol],
    rcat [.bol, .grp .self (.plusC isW), .starC isSp, sepAlt, .starC isSp,
          .grp .cmd (.plusC isW), .opt (rcat [lit '(', lit ')']), .eol]]⟩

/-- The two `unary_invoke` spellings (bare and quoted argument). -/
def Shape.unary_invoke : Shape :=
  ⟨[rcat [.bol, .grp .self (.plusC isW), .starC isSp, sepAlt, .starC isSp,
          .grp .cmd (.plusC isW),
          .opt (rcat [lit '(', .starC isSp, .grp (.num 0) (.plusC isWdd),
                      .starC isSp, lit ')']),
          .eol],
    rcat [.bol, .grp .self (.plusC isW), .starC isSp, sepAlt, .starC isSp,
          .grp .cmd (.plusC isW),
          .opt (rcat [lit '(', .starC isSp, lit (Char.ofNat 39),
                      .grp (.num 0) (.plusC isNotQuote), lit (Char.ofNat 39),
                      .starC isSp, lit ')']),
          .eol]]⟩

/-- The two `binary_invoke` spellings (bare and quoted arguments). -/
def Shape.binary_invoke : Shape :=
  ⟨[rcat [.bol, .grp .self (.plusC isW), .starC isSp, sepAlt, .starC isSp,
          .grp .cmd (.plusC isW),
          .opt (rcat [lit '(', .starC isSp, .grp (.num 0) (.plusC isWdd),
                      .starC isSp, lit ',', .starC isSp,
                      .grp (.num 1) (.plusC isWdd), .starC isSp, lit ')']),
          .eol],
    rcat [.bol, .grp .self (.plusC isW), .starC isSp, sepAlt, .starC isSp,
          .grp .cmd (.plusC isW),
          .opt (rcat [lit '(', .starC isSp, lit (Char.ofNat 39),
                      .grp (.num 0) (.plusC isNotQuote), lit (Char.ofNat 39),
                      .starC isSp, lit ',', .starC isSp, lit (Char.ofNat 39),
                      .grp (.num 1) (.plusC isNotQuote), lit (Char.ofNat 39),
                      .starC isSp, lit ')']),
          .eol]]⟩

/-- `"(?:^[\\w]+ +)?(?P<cmd>[\\w]+) +(?P<self>[\\w]+) +(?P<0>[ \\w]+)[.!]?$"`. -/
def Shape.do_with : Shape :=
  ⟨[rcat [.opt (rcat [.bol, .plusC isW, .plusC isSp]),
          .grp .cmd (.plusC isW), .plusC isSp, .grp .self (.plusC isW),
          .plusC isSp, .grp (.num 0) (.plusC isSpW),
          .opt (.cls isDotBang), .eol]]⟩

/-! ### `Shape::try_match` -/

structure CommandMatch where
  referent : Str
  command : Str
  args : List Str
deriving DecidableEq

/-- The argument-collection loop of `try_match`: numbered groups starting
at 0, contiguously until the first missing index.  The fuel
`caps.length + 1` is an upper bound on how many indices can possibly be
bound, so the loop below always stops at the first missing index. -/
def collectArgsGo (caps : Caps) (i fuel : Nat) : List Str :=
  match fuel with
  | 0 => []
  | fuel + 1 =>
    match capsFind caps (.num i) with
    | some v => v :: collectArgsGo caps (i + 1) fuel
    | none => []

def collectArgs (caps : Caps) : List Str := collectArgsGo caps 0 (caps.length + 1)

/-- `Shape::try_match` over a pattern list.  The `.unwrap()` calls on the
`self` and `cmd` groups are modelled with a default (every library pattern
binds both groups whenever it matches, so the default is never used). -/
def tryMatch (patterns : List RE) (expected_referent : Str)
    (expected_labels : List Str) (val : Str) : Option CommandMatch :=
  match patterns with
  | [] => none
  | p :: rest =>
    match reCaptures p val with
    | some caps =>
      let referent := (capsFind caps .self).getD []
      if referent ≠ expected_referent then
        tryMatch rest expected_referent expected_labels val
      else
        let command := (capsFind caps .cmd).getD []
        if ¬ expected_labels.contains command then
          tryMatch rest expected_referent expected_labels val
        else
          some ⟨referent, command, collectArgs caps⟩
    | none => tryMatch rest expected_referent expected_labels val

def Shape.try_match (sh : Shape) (expected_referent : Str)
    (expected_labels : List Str) (val : Str) : Option CommandMatch :=
  tryMatch sh.patterns expected_referent expected_labels val

/-! ### `zephyr.rs`: notices, triplets, wrapping, reading -/

/-- The body of the `wrap_lines` word loop (state: `buf`, `line_len`). -/
def wrapStep (limit : Nat) (st : Str × Nat) (w : Str) : Str × Nat :=
  let buf := st.1
  let ll := st.2
  let st2 : Str × Nat :=
    if ll + w.length > limit then (buf ++ '\n' :: w, 0)
    else if ll = 0 then (buf ++ w, ll)
    else (buf ++ ' ' :: w, ll + 1)
  if w.getLast? = some '\n' then (st2.1, 0) else (st2.1, st2.2 + w.length)

/-- `zephyr.rs::wrap_lines`. -/
def wrap_lines (limit : Nat) (val : Str) : List Str :=
  let words := splitPred isWrapSep (replaceNl val)
  let st := words.foldl (wrapStep limit) ([], 0)
  splitChar '\n' st.1

inductive Direction where
  | Incoming
  | Outgoing
deriving DecidableEq

/-- `IncomingData` (the `date` field is `Duration::from_millis(0)` in the
source, modelled as a `Nat` of milliseconds). -/
structure IncomingData where
  is_auth : Bool
  date : Nat
  host : Str
deriving DecidableEq

/-- `zephyr.rs::Notice`; the Rust fields `class` and `instance` are Lean
keywords and are called `cls` and `inst` here. -/
structure Notice where
  opcode : Str
  direction : Direction
  cls : Str
  inst : Str
  sender : Str
  zsig : Str
  body : List Str
  incoming_data : Option IncomingData
deriving DecidableEq

/-- `zephyr.rs::Triplet` (field `recip` is the Rust `recipient`). -/
structure Triplet where
  cls : Str
  inst : Option Str
  recip : Option Str
deriving DecidableEq

def Triplet.of_class (c : Str) : Triplet := ⟨c, none, none⟩

def Triplet.of_instance (c i : Str) : Triplet := ⟨c, some i, none⟩

def Notice.new_outgoing_with_wrap (opcode cls inst sender zsig body : Str)
    (wrap : Nat) : Notice :=
  { opcode := opcode
    direction := .Outgoing
    cls := cls
    inst := inst
    sender := sender
    zsig := zsig
    body := wrap_lines wrap body
    incoming_data := none }

def Notice.new_outgoing (opcode cls inst sender zsig body : Str) : Notice :=
  Notice.new_outgoing_with_wrap opcode cls inst sender zsig body 70

def Triplet.make_reply (t : Triplet) (sender zsig body : Str) : Notice :=
  Notice.new_outgoing (str "AUTO") t.cls (t.inst.getD (str "personal"))
    sender zsig body

def Notice.triplet (n : Notice) : Triplet := Triplet.of_instance n.cls n.inst

def Notice.make_reply (n : Notice) (sender zsig body : Str) : Notice :=
  n.triplet.make_reply sender zsig body

/-! #### `Zephyr::read` (parsing the receiver's block)

`read` splits the raw block into lines and each line with
`splitn(2, ": ")`; for a line whose first piece is a known key, the code
indexes `split[1]`, which panics when the separator is absent.  The panic
is modelled by `Option.none`. -/

/-- Rust `line.splitn(2, ": ")`: `some (before, after)` at the first
occurrence of the separator, `none` when there is none. -/
def splitOnceColonSp : Str → Option (Str × Str)
  | [] => none
  | ':' :: ' ' :: rest => some ([], rest)
  | c :: rest => (splitOnceColonSp rest).map (fun q => (c :: q.1, q.2))

/-- Field accumulators of `Zephyr::read`. -/
structure RawAcc where
  opcode : Str
  cls : Str
  inst : Str
  sender : Str
  auth : Str
  time : Str
  date : Str
  host : Str
  zsig : Str
  body : List Str

def RawAcc.init : RawAcc := ⟨[], [], [], [], [], [], [], [], [], []⟩

def readKeys : List Str :=
  [str "opcode", str "class", str "instance", str "sender", str "auth",
   str "time", str "date", str "fromhost", str "signature", str "body"]

/-- The `match split[0]` arms for a line that does contain the
separator: append `split[1]` to the keyed accumulator, ignore unknown
keys. -/
def RawAcc.update (acc : RawAcc) (k v : Str) : RawAcc :=
  if k = str "opcode" then { acc with opcode := acc.opcode ++ v }
  else if k = str "class" then { acc with cls := acc.cls ++ v }
  else if k = str "instance" then { acc with inst := acc.inst ++ v }
  else if k = str "sender" then { acc with sender := acc.sender ++ v }
  else if k = str "auth" then { acc with auth := acc.auth ++ v }
  else if k = str "time" then { acc with time := acc.time ++ v }
  else if k = str "date" then { acc with date := acc.date ++ v }
  else if k = str "fromhost" then { acc with host := acc.host ++ v }
  else if k = str "signature" then { acc with zsig := acc.zsig ++ v }
  else if k = str "body" then { acc with body := acc.body ++ [v] }
  else acc

/-- One iteration of the `for line in raw.split('\n')` loop; `none` is the
out-of-bounds panic on `split[1]` when a known key appears on a line
without the separator. -/
def readLine (acc : RawAcc) (line : Str) : Option RawAcc :=
  match splitOnceColonSp line with
  | some (k, v) => some (acc.update k v)
  | none => if readKeys.contains line then none else some acc

def readLines : List Str → RawAcc → Option RawAcc
  | [], acc => some acc
  | l :: ls, acc =>
    match readLine acc l with
    | some acc2 => readLines ls acc2
    | none => none

def RawAcc.toNotice (acc : RawAcc) : Notice :=
  { opcode := acc.opcode
    direction := .Incoming
    cls := acc.cls
    inst := acc.inst
    sender := acc.sender
    zsig := acc.zsig
    body := acc.body
    incoming_data := some
      { is_auth := acc.auth = str "yes"
        date := 0
        host := acc.host } }

/-- The parsing core of `Zephyr::read`, from the raw block text to a
`Notice`; `none` models the `split[1]` panic. -/
def zephyrRead (raw : Str) : Option Notice :=
  (readLines (splitChar '\n' raw) RawAcc.init).map RawAcc.toNotice

/-! ### `command.rs` / `bot.rs`: commands, handlers, state, tick -/

inductive Scope where
  | Local
  | Everywhere
deriving DecidableEq

/-- `bot.rs::State`.  Only the fields the dispatch pipeline reads are
modelled; the open-ended extra data is the type parameter `σ`
(mirroring the source's generic `E`). -/
structure BotState (σ : Type) where
  name : Str
  cls : Str
  inst : Str
  extra : σ

/-- `command.rs::Handler`: an action that may mutate the state and
reports whether it fired. -/
def Handler (σ : Type) : Type := BotState σ → Notice → BotState σ × Bool

/-- `Handler::try_exec` simply runs the action. -/
def Handler.try_exec (h : Handler σ) (st : BotState σ) (n : Notice) :
    BotState σ × Bool := h st n

/-- `command.rs::Command`. -/
structure Command (σ : Type) where
  shape : Shape
  scope : Scope
  labels : List Str
  action : BotState σ → Notice → CommandMatch → BotState σ

/-- `Command::try_exec`: match the newline-joined, trimmed body against
the shape with the bot's name and the command's labels; a `Local` command
additionally requires the notice topic to equal the bot's current
`(class, instance)`; on success run the action and report `true`. -/
def Command.try_exec (c : Command σ) (st : BotState σ) (n : Notice) :
    BotState σ × Bool :=
  match c.shape.try_match st.name c.labels (trimStr (joinNl n.body)) with
  | some cm =>
    match c.scope with
    | .Local =>
      if ¬ (st.cls = n.cls ∧ st.inst = n.inst) then (st, false)
      else (c.action st n cm, true)
    | .Everywhere => (c.action st n cm, true)
  | none => (st, false)

/-- `bot.rs::Bot` (minus the transport, which never participates in
dispatch). -/
structure Zpet.Bot (σ : Type) where
  state : BotState σ
  commands : List (Command σ)
  pre_command_handlers : List (Handler σ)
  post_command_handlers : List (Handler σ)

/-- A first-fire loop over handlers, threading the mutable state. -/
def runHandlers : List (Handler σ) → BotState σ → Notice → BotState σ × Bool
  | [], st, _ => (st, false)
  | h :: t, st, n =>
    let r := h.try_exec st n
    if r.2 then (r.1, true) else runHandlers t r.1 n

/-- A first-fire loop over commands, threading the mutable state. -/
def runCommands : List (Command σ) → BotState σ → Notice → BotState σ × Bool
  | [], st, _ => (st, false)
  | c :: t, st, n =>
    let r := c.try_exec st n
    if r.2 then (r.1, true) else runCommands t r.1 n

/-- `Bot::tick`: discard `AUTO` notices, then pre-handlers, commands,
post-handlers, stopping at the first that fires. -/
def Zpet.Bot.tick (b : Zpet.Bot σ) (n : Notice) : BotState σ :=
  if n.opcode = str "AUTO" then b.state
  else
    let pre := runHandlers b.pre_command_handlers b.state n
    if pre.2 then pre.1
    else
      let cmds := runCommands b.commands pre.1 n
      if cmds.2 then cmds.1
      else (runHandlers b.post_command_handlers cmds.1 n).1

/-- The notice constructed by `State::reply_at_zsigned` before it is
handed to `zwrite`. -/
def BotState.reply_notice (st : BotState σ) (t : Triplet) (zsig body : Str) :
    Notice :=
  t.make_reply st.name zsig body

/-! ### Definitions used only to state the claims -/

/-- A pattern "matches and passes both filters" in the `try_match` loop:
its regex matches the input, the `self` group equals the expected
referent, and the `cmd` group is among the expected labels. -/
def passesFilters (expected_referent : Str) (expected_labels : List Str)
    (val : Str) (p : RE) : Bool :=
  match reCaptures p val with
  | some caps =>
    ((capsFind caps .self).getD [] == expected_referent) &&
      expected_labels.contains ((capsFind caps .cmd).getD [])
  | none => false

/-- The `CommandMatch` built from a pattern's captures. -/
def buildMatch (val : Str) (p : RE) : CommandMatch :=
  match reCaptures p val with
  | some caps =>
    ⟨(capsFind caps .self).getD [], (capsFind caps .cmd).getD [],
      collectArgs caps⟩
  | none => ⟨[], [], []⟩

/-- A single word: nonempty, all chars in the `\w` class. -/
def IsWord (w : Str) : Prop := w ≠ [] ∧ ∀ c ∈ w, isW c = true

/-- The word list `wrap_lines` iterates over. -/
def wrapWords (val : Str) : List Str := splitPred isWrapSep (replaceNl val)

/-- Remove the trailing `'\n'` a `wrap_lines` word may carry. -/
def stripNl (w : Str) : Str := if w.getLast? = some '\n' then w.dropLast else w

/-- Number of newline characters in a string. -/
def countNl (s : Str) : Nat := s.countP (fun c => c = '\n')

/-- The highest-priority (first) result of matching `re` at `pos` on `s`
is captures `c`, new position `p2`, and remaining input `r`. -/
def HeadIs (re : RE) (pos : Nat) (s : Str) (c : Caps) (p2 : Nat) (r : Str) :
    Prop :=
  ∃ tl, reMatch re pos s = (c, p2, r) :: tl

/-! ## Theorems -/

/-! ### C4: AUTO notices are dropped before any dispatch -/

/-- C4: for every notice whose opcode is `"AUTO"`, `Bot.tick` returns the
state unchanged without consulting the pre-handler, command, or
post-handler lists (the result does not depend on them at all), regardless
of the notice's body, class, or instance. -/
theorem c4_auto_discard (σ : Type) (st : BotState σ) (cmds : List (Command σ))
    (pre post : List (Handler σ)) (n : Notice) (h : n.opcode = str "AUTO") :
    Zpet.Bot.tick ⟨st, cmds, pre, post⟩ n = st := by
  simp [Zpet.Bot.tick, h]

/-- Witness for C4 at a concrete AUTO notice and bot. -/
theorem c4_auto_discard_witness :
    Zpet.Bot.tick (σ := Unit)
      ⟨⟨str "topy", str "help", str "ai", ()⟩, [], [], []⟩
      ⟨str "AUTO", .Incoming, str "x", str "y", str "s", str "z",
        [str "anything"], some ⟨false, 0, str "h"⟩⟩ =
      ⟨str "topy", str "help", str "ai", ()⟩ :=
  c4_auto_discard Unit _ _ _ _ _ rfl

/-! ### C3: dispatch pipeline order, first match wins -/

/-- C3: `Bot.tick` runs pre-handlers, then commands, then post-handlers,
each threaded in registration order with the loop stopping at the first
firing entry (the `cons` equations), and stops at the first phase that
fires: if a pre-handler fires the result ignores the command and
post-handler lists entirely; if a command fires the result ignores the
post-handler list; if nothing fires the state threaded through all three
phases is returned with no further effect. -/
theorem c3_dispatch_order (σ : Type) (st : BotState σ)
    (pre post : List (Handler σ)) (cmds : List (Command σ)) (n : Notice)
    (hop : ¬ n.opcode = str "AUTO") :
    (∀ (h : Handler σ) (t : List (Handler σ)) (s : BotState σ),
      runHandlers (h :: t) s n =
        if (h.try_exec s n).2 then ((h.try_exec s n).1, true)
        else runHandlers t (h.try_exec s n).1 n) ∧
    (∀ (c : Command σ) (t : List (Command σ)) (s : BotState σ),
      runCommands (c :: t) s n =
        if (c.try_exec s n).2 then ((c.try_exec s n).1, true)
        else runCommands t (c.try_exec s n).1 n) ∧
    ((runHandlers pre st n).2 = true →
      ∀ (cmds2 : List (Command σ)) (post2 : List (Handler σ)),
        Zpet.Bot.tick ⟨st, cmds2, pre, post2⟩ n = (runHandlers pre st n).1) ∧
    ((runHandlers pre st n).2 = false →
      (runCommands cmds (runHandlers pre st n).1 n).2 = true →
      ∀ (post2 : List (Handler σ)),
        Zpet.Bot.tick ⟨st, cmds, pre, post2⟩ n =
          (runCommands cmds (runHandlers pre st n).1 n).1) ∧
    ((runHandlers pre st n).2 = false →
      (runCommands cmds (runHandlers pre st n).1 n).2 = false →
      Zpet.Bot.tick ⟨st, cmds, pre, post⟩ n =
        (runHandlers post (runCommands cmds (runHandlers pre st n).1 n).1 n).1) := by
  refine ⟨fun h t s => ?_, fun c t s => ?_, fun h1 cmds2 post2 => ?_,
    fun h1 h2 post2 => ?_, fun h1 h2 => ?_⟩
  · simp [runHandlers]
  · simp [runCommands]
  · simp [Zpet.Bot.tick, hop, h1]
  · simp [Zpet.Bot.tick, hop, h1, h2]
  · simp [Zpet.Bot.tick, hop, h1, h2]

/-- Witness for C3 at a concrete bot (a pre-handler that always fires). -/
theorem c3_dispatch_order_witness :
    Zpet.Bot.tick (σ := Unit)
      ⟨⟨str "topy", str "help", str "ai", ()⟩, [],
        [fun s _ => (s, true)], []⟩
      ⟨str "MSG", .Incoming, str "x", str "y", str "s", str "z", [], none⟩ =
      ⟨str "topy", str "help", str "ai", ()⟩ :=
  ((c3_dispatch_order Unit ⟨str "topy", str "help", str "ai", ()⟩
      [fun s _ => (s, true)] [] []
      ⟨str "MSG", .Incoming, str "x", str "y", str "s", str "z", [], none⟩
      (by decide)).2.2.1 rfl [] [])

/-! ### C2: Local versus Everywhere scope in `Command::try_exec` -/

/-- C2: a `Local` command fires exactly when the shape matches and the
notice topic equals the bot's current `(class, instance)`; an
`Everywhere` command fires exactly when the shape matches, with no topic
check; a firing call returns the action's result; a non-firing call
returns `false` with the state untouched (the action is not invoked). -/
theorem c2_scope (σ : Type) (c : Command σ) (st : BotState σ) (n : Notice) :
    (c.scope = .Local →
      ((c.try_exec st n).2 = true ↔
        (∃ cm, c.shape.try_match st.name c.labels (trimStr (joinNl n.body)) =
          some cm) ∧ st.cls = n.cls ∧ st.inst = n.inst)) ∧
    (c.scope = .Everywhere →
      ((c.try_exec st n).2 = true ↔
        ∃ cm, c.shape.try_match st.name c.labels (trimStr (joinNl n.body)) =
          some cm)) ∧
    ((c.try_exec st n).2 = true →
      ∃ cm, c.shape.try_match st.name c.labels (trimStr (joinNl n.body)) =
        some cm ∧ (c.try_exec st n).1 = c.action st n cm) ∧
    ((c.try_exec st n).2 = false → (c.try_exec st n).1 = st) := by
  unfold Command.try_exec
  rcases hm : c.shape.try_match st.name c.labels (trimStr (joinNl n.body)) with
    _ | cm
  · rcases c.scope with _ | _ <;>
      simp_all
  · rcases hs : c.scope with _ | _
    · by_cases htop : st.cls = n.cls ∧ st.inst = n.inst
      · simp_all
      · simp_all
    · simp_all

/-- Witness for C2: a concrete Everywhere command firing on a matching
notice (via the iff), exercising the hypotheses of `c2_scope`. -/
theorem c2_scope_witness :
    (Command.try_exec (σ := Unit)
      ⟨Shape.order, .Everywhere, [str "sit"], fun s _ _ => s⟩
      ⟨str "topy", str "help", str "ai", ()⟩
      ⟨str "MSG", .Incoming, str "other", str "place", str "s", str "z",
        [str "topy, sit!"], none⟩).2 = true :=
  ((c2_scope Unit
      ⟨Shape.order, .Everywhere, [str "sit"], fun s _ _ => s⟩
      ⟨str "topy", str "help", str "ai", ()⟩
      ⟨str "MSG", .Incoming, str "other", str "place", str "s", str "z",
        [str "topy, sit!"], none⟩).2.1 rfl).2
    ⟨⟨str "topy", str "sit", []⟩, by decide⟩

/-! ### C9: replies carry the target topic, instance defaults -/

/-- C9: a reply built from the triplet of an inbound notice with class
`"help"` and instance `"ai"` carries class `"help"` and instance `"ai"`;
for every reply target with an absent instance, the reply's instance
defaults to `"personal"`. -/
theorem c9_reply_topic :
    (∀ (n : Notice) (s z b : Str), n.cls = str "help" → n.inst = str "ai" →
      (n.triplet.make_reply s z b).cls = str "help" ∧
        (n.triplet.make_reply s z b).inst = str "ai") ∧
    (∀ (t : Triplet) (s z b : Str), t.inst = none →
      (t.make_reply s z b).inst = str "personal") := by
  constructor
  · intro n s z b hc hi
    simp [Notice.triplet, Triplet.of_instance, Triplet.make_reply,
      Notice.new_outgoing, Notice.new_outgoing_with_wrap, hc, hi]
  · intro t s z b hi
    simp [Triplet.make_reply, Notice.new_outgoing,
      Notice.new_outgoing_with_wrap, hi]

/-- Witness for C9 at a concrete notice and a concrete wildcard target. -/
theorem c9_reply_topic_witness :
    ((Notice.triplet ⟨str "MSG", .Incoming, str "help", str "ai", str "s",
        str "z", [], none⟩).make_reply (str "topy") (str "zs")
          (str "hello")).cls = str "help" ∧
    ((Triplet.of_class (str "help")).make_reply (str "topy") (str "zs")
        (str "hello")).inst = str "personal" :=
  ⟨(c9_reply_topic.1 ⟨str "MSG", .Incoming, str "help", str "ai", str "s",
      str "z", [], none⟩ (str "topy") (str "zs") (str "hello") rfl rfl).1,
    c9_reply_topic.2 (Triplet.of_class (str "help")) (str "topy") (str "zs")
      (str "hello") rfl⟩

/-! ### C10: every reply is an Outgoing AUTO notice that any framework
bot's tick discards -/

/-- C10: every notice produced by `Triplet::make_reply` (hence every
notice the `State::reply_*` family sends) has opcode `"AUTO"`, direction
`Outgoing` and no incoming data; and because of the `AUTO` filter,
`Bot.tick` of any bot leaves its state untouched on such a notice,
whatever its handlers and commands are. -/
theorem c10_reply_auto :
    ∀ (t : Triplet) (s z b : Str),
      (t.make_reply s z b).opcode = str "AUTO" ∧
      (t.make_reply s z b).direction = .Outgoing ∧
      (t.make_reply s z b).incoming_data = none ∧
      (∀ (σ : Type) (stb : BotState σ) (zs bd : Str),
        stb.reply_notice t zs bd = t.make_reply stb.name zs bd) ∧
      (∀ (σ : Type) (st : BotState σ) (cmds : List (Command σ))
          (pre post : List (Handler σ)),
        Zpet.Bot.tick ⟨st, cmds, pre, post⟩ (t.make_reply s z b) = st) := by
  intro t s z b
  refine ⟨rfl, rfl, rfl, fun σ stb zs bd => rfl, fun σ st cmds pre post => ?_⟩
  simp [Zpet.Bot.tick, Triplet.make_reply, Notice.new_outgoing,
    Notice.new_outgoing_with_wrap]

/-! ### C6: the concrete wrapping example -/

/-- C6: `wrap_lines` with limit 10 on `"one two three"` yields exactly the
lines `["one two", "three"]`. -/
theorem c6_wrap_example :
    wrap_lines 10 (str "one two three") = [str "one two", str "three"] := by
  decide

/-! ### C7: transport read failures -/

/-- A line that either has the `": "` separator or is not a bare known
key is processed without panicking. -/
theorem readLine_wellformed (acc : RawAcc) (l : Str)
    (h : splitOnceColonSp l ≠ none ∨ readKeys.contains l = false) :
    ∃ acc2, readLine acc l = some acc2 := by
  unfold readLine
  rcases hsp : splitOnceColonSp l with _ | ⟨k, v⟩
  · rcases h with h | h
    · exact absurd hsp h
    · have hm : l ∉ readKeys := by
        intro hmem
        have h2 : List.elem l readKeys = false := h
        rw [List.elem_eq_true_of_mem hmem] at h2
        exact Bool.noConfusion h2
      exact ⟨acc, by simp [readLine, hsp, hm]⟩
  · exact ⟨acc.update k v, rfl⟩

/-- The line loop of `Zephyr::read` completes on a block whose lines are
all well-formed. -/
theorem readLines_wellformed : ∀ (ls : List Str) (acc : RawAcc),
    (∀ l ∈ ls, splitOnceColonSp l ≠ none ∨ readKeys.contains l = false) →
    ∃ acc2, readLines ls acc = some acc2
  | [], acc, _ => ⟨acc, rfl⟩
  | l :: ls, acc, h => by
    obtain ⟨acc2, hacc⟩ := readLine_wellformed acc l (h l (by simp))
    obtain ⟨acc3, hacc3⟩ :=
      readLines_wellformed ls acc2 (fun x hx => h x (by simp [hx]))
    exact ⟨acc3, by simp [readLines, hacc, hacc3]⟩

/-- C7 (amended): for every raw block in which no line consists of a bare
known key lacking the `": "` separator, `Zephyr::read` returns a Notice.
(The claim as stated is false: such a malformed line — or non-UTF-8
input — makes `read` panic via `split[1]` / `.unwrap()`, aborting the
process instead of returning an error result; see the counterexample.) -/
theorem c7_read_wellformed (raw : Str)
    (h : ∀ l ∈ splitChar '\n' raw,
      splitOnceColonSp l ≠ none ∨ readKeys.contains l = false) :
    ∃ n, zephyrRead raw = some n := by
  obtain ⟨acc2, hacc⟩ := readLines_wellformed (splitChar '\n' raw) RawAcc.init h
  exact ⟨acc2.toNotice, by simp [zephyrRead, hacc]⟩

/-- Witness for C7 (amended) on a concrete well-formed block. -/
theorem c7_read_wellformed_witness :
    ∃ n, zephyrRead (str "class: help\ninstance: ai\nbody: hi") = some n :=
  c7_read_wellformed _ (by decide)

/-- C7 counterexample: a block consisting of the single line `"opcode"`
(a known key with no `": "` separator) drives `Zephyr::read` into the
out-of-bounds `split[1]` panic — modelled by `none` — so the process
aborts; `read` neither returns a Notice nor an error result. -/
theorem c7_counterexample : zephyrRead (str "opcode") = none := by decide

/-! ### C1: the `try_match` loop -/

/-- A successful `capsFind` lookup means the name is bound. -/
theorem capsFind_ne_none_mem : ∀ (caps : Caps) (g : GName),
    capsFind caps g ≠ none → g ∈ caps.map Prod.fst
  | [], g, h => absurd rfl h
  | (g1, v) :: t, g, h => by
    by_cases hg : g1 = g
    · simp [hg]
    · have := capsFind_ne_none_mem t g (by simpa [capsFind, hg] using h)
      simp [this]

/-- Pigeonhole: among the indices `0 … caps.length` some numbered group
is unbound (there are more indices than bindings). -/
theorem exists_missing_index (caps : Caps) :
    ∃ k, k ≤ caps.length ∧ capsFind caps (.num k) = none := by
  by_contra hall
  push_neg at hall
  have hsub : ((List.range (caps.length + 1)).map GName.num) ⊆
      caps.map Prod.fst := by
    intro g hg
    simp only [List.mem_map, List.mem_range] at hg
    obtain ⟨k, hk, rfl⟩ := hg
    exact capsFind_ne_none_mem caps (.num k) (hall k (by omega))
  have hinj : Function.Injective GName.num := fun a b h => by
    injection h
  have hnodup : ((List.range (caps.length + 1)).map GName.num).Nodup :=
    (List.nodup_range _).map hinj
  have hle := (List.subperm_of_subset hnodup hsub).length_le
  simp only [List.length_map, List.length_range] at hle
  omega

/-- The argument loop collects numbered groups contiguously from 0 up to
the first missing index, provided some index within the fuel is
missing. -/
theorem collectArgsGo_spec : ∀ (fuel i : Nat) (caps : Caps),
    (∃ k, k < fuel ∧ capsFind caps (.num (i + k)) = none) →
    (∀ j (hj : j < (collectArgsGo caps i fuel).length),
      capsFind caps (.num (i + j)) =
        some ((collectArgsGo caps i fuel).get ⟨j, hj⟩)) ∧
    capsFind caps (.num (i + (collectArgsGo caps i fuel).length)) = none
  | 0, _, _, h => by
    obtain ⟨k, hk, _⟩ := h
    omega
  | fuel + 1, i, caps, h => by
    rcases hf : capsFind caps (.num i) with _ | v
    · constructor
      · intro j hj
        simp [collectArgsGo, hf] at hj
      · simp [collectArgsGo, hf]
    · obtain ⟨k, hk, hnone⟩ := h
      have hkpos : k ≠ 0 := by
        intro h0
        rw [h0, Nat.add_zero] at hnone
        rw [hf] at hnone
        exact Option.noConfusion hnone
      obtain ⟨k2, rfl⟩ := Nat.exists_eq_succ_of_ne_zero hkpos
      have ih := collectArgsGo_spec fuel (i + 1) caps
        ⟨k2, by omega, by rw [show i + 1 + k2 = i + (k2 + 1) from by omega]; exact hnone⟩
      rw [show collectArgsGo caps i (fuel + 1) = v :: collectArgsGo caps (i + 1) fuel
        from by simp [collectArgsGo, hf]]
      constructor
      · intro j hj
        match j with
        | 0 => simpa using hf
        | j + 1 =>
          simp only [List.length_cons] at hj
          rw [show i + (j + 1) = (i + 1) + j from by omega]
          simpa using ih.1 j (by omega)
      · rw [show i + (List.length (v :: collectArgsGo caps (i + 1) fuel)) =
          (i + 1) + (collectArgsGo caps (i + 1) fuel).length from by simp; omega]
        exact ih.2

/-- `collectArgs caps` is exactly the contiguous run of numbered groups
`0, 1, 2, …` up to the first missing index. -/
theorem collectArgs_spec (caps : Caps) :
    (∀ j (hj : j < (collectArgs caps).length),
      capsFind caps (.num j) = some ((collectArgs caps).get ⟨j, hj⟩)) ∧
    capsFind caps (.num (collectArgs caps).length) = none := by
  obtain ⟨k, hk, hnone⟩ := exists_missing_index caps
  have h := collectArgsGo_spec (caps.length + 1) 0 caps
    ⟨k, by omega, by simpa using hnone⟩
  simpa [collectArgs] using h

/-- C1: `try_match` returns the result of the first pattern (in
declaration order) that matches the input and passes both filters —
a pattern that matches but whose `self` group differs from the expected
referent, or whose `cmd` group is not among the expected labels, is
skipped rather than failing the whole shape — and `none` (never an
error) when no pattern passes; on success the args are exactly the
numbered groups `0, 1, 2, …` collected contiguously until the first
missing index. -/
theorem c1_try_match_spec (ps : List RE) (r : Str) (ls : List Str) (v : Str) :
    tryMatch ps r ls v = (ps.find? (passesFilters r ls v)).map (buildMatch v) ∧
    (∀ caps : Caps,
      (∀ j (hj : j < (collectArgs caps).length),
        capsFind caps (.num j) = some ((collectArgs caps).get ⟨j, hj⟩)) ∧
      capsFind caps (.num (collectArgs caps).length) = none) := by
  refine ⟨?_, collectArgs_spec⟩
  induction ps with
  | nil => rfl
  | cons p rest ih =>
    rcases hc : reCaptures p v with _ | caps
    · have hpf : passesFilters r ls v p = false := by
        simp [passesFilters, hc]
      simp [tryMatch, hc, List.find?_cons, hpf, ih]
    · by_cases hr : (capsFind caps .self).getD [] = r
      · by_cases hl : ls.contains ((capsFind caps .cmd).getD []) = true
        · have hm : (capsFind caps .cmd).getD [] ∈ ls :=
            List.mem_of_elem_eq_true hl
          have hpf : passesFilters r ls v p = true := by
            simp [passesFilters, hc, hr, hm]
          simp [tryMatch, hc, hr, hl, hm, List.find?_cons, hpf, buildMatch]
        · have hm : ¬ (capsFind caps .cmd).getD [] ∈ ls := fun hmem =>
            hl (List.elem_eq_true_of_mem hmem)
          have hpf : passesFilters r ls v p = false := by
            simp [passesFilters, hc, hr, hm]
          simp [tryMatch, hc, hr, hl, hm, List.find?_cons, hpf, ih]
      · have hpf : passesFilters r ls v p = false := by
          simp [passesFilters, hc, hr]
        simp [tryMatch, hc, hr, List.find?_cons, hpf, ih]

/-- Witness for C1 at a concrete shape, input, and capture list. -/
theorem c1_try_match_spec_witness :
    tryMatch Shape.order.patterns (str "topy") [str "sit"] (str "topy, sit") =
      ((Shape.order.patterns.find? (passesFilters (str "topy") [str "sit"]
        (str "topy, sit"))).map (buildMatch (str "topy, sit"))) ∧
    capsFind [(GName.num 0, str "x")] (.num 0) =
      some ((collectArgs [(GName.num 0, str "x")]).get ⟨0, by decide⟩) :=
  ⟨(c1_try_match_spec Shape.order.patterns (str "topy") [str "sit"]
      (str "topy, sit")).1,
    ((c1_try_match_spec Shape.order.patterns (str "topy") [str "sit"]
      (str "topy, sit")).2 [(GName.num 0, str "x")]).1 0 (by decide)⟩

/-! ### C5: wrapping invariants — split/count support lemmas -/

theorem splitPred_ne_nil (p : Char → Bool) : ∀ (s : Str), splitPred p s ≠ []
  | [] => by simp [splitPred]
  | c :: s => by
    by_cases h : p c = true
    · simp [splitPred, h]
    · rcases hs : splitPred p s with _ | ⟨l, ls⟩
      · exact absurd hs (splitPred_ne_nil p s)
      · simp [splitPred, h, hs]

theorem modifyLast_cons (f : Str → Str) (x : Str) (l : List Str)
    (h : l ≠ []) : modifyLast f (x :: l) = x :: modifyLast f l := by
  rcases l with _ | ⟨y, ys⟩
  · exact absurd rfl h
  · rfl

theorem modifyLast_concat (f : Str → Str) : ∀ (L : List Str) (x : Str),
    modifyLast f (L ++ [x]) = L ++ [f x]
  | [], x => rfl
  | a :: L, x => by
    rw [List.cons_append, modifyLast_cons f a (L ++ [x]) (by simp),
      modifyLast_concat f L x, List.cons_append]

/-- Appending a run free of separator chars extends the last piece. -/
theorem splitPred_append_nosep (p : Char → Bool) :
    ∀ (s t : Str), (∀ c ∈ t, p c = false) →
    splitPred p (s ++ t) = modifyLast (fun x => x ++ t) (splitPred p s)
  | [], t, ht => by
    induction t with
    | nil => rfl
    | cons c t ih =>
      have hc : p c = false := ht c (by simp)
      have ih2 := ih (fun d hd => ht d (by simp [hd]))
      rcases hs : splitPred p t with _ | ⟨l, ls⟩
      · exact absurd hs (splitPred_ne_nil p t)
      · simp only [List.nil_append] at ih2 ⊢
        rw [hs] at ih2
        simp only [splitPred, modifyLast] at ih2 ⊢
        rw [hc] at *
        simp only [Bool.false_eq_true, if_false, hs]
        simp [splitPred, modifyLast] at ih2 ⊢
        rcases ih2 with ⟨h1, h2⟩
        simp [h1, h2]
  | c :: s, t, ht => by
    by_cases hc : p c = true
    · rw [List.cons_append]
      simp only [splitPred, hc, if_true]
      rw [splitPred_append_nosep p s t ht,
        modifyLast_cons _ _ _ (splitPred_ne_nil p s)]
    · rw [List.cons_append]
      have hc2 : p c = false := by simpa using hc
      rcases hs : splitPred p s with _ | ⟨l, ls⟩
      · exact absurd hs (splitPred_ne_nil p s)
      · have ih := splitPred_append_nosep p s t ht
        rw [hs] at ih
        rcases hls : ls with _ | ⟨m, ms⟩
        · simp only [hls] at ih
          simp only [modifyLast] at ih
          simp [splitPred, hc2, ih, hs, hls, modifyLast]
        · simp only [hls] at ih
          rw [modifyLast_cons _ _ _ (by simp)] at ih
          have hcs : splitPred p (c :: s) = (c :: l) :: m :: ms := by
            simp [splitPred, hc2, hs, hls]
          have hct : splitPred p (c :: (s ++ t)) =
              (c :: l) :: modifyLast (fun x => x ++ t) (m :: ms) := by
            simp [splitPred, hc2, ih]
          rw [hct, hcs,
            modifyLast_cons (fun x => x ++ t) (c :: l) (m :: ms) (by simp)]

/-- Splitting at an explicit separator char concatenates the two split
lists. -/
theorem splitPred_append_sep (p : Char → Bool) (c : Char) (hc : p c = true) :
    ∀ (a b : Str), splitPred p (a ++ c :: b) = splitPred p a ++ splitPred p b
  | [], b => by simp [splitPred, hc]
  | d :: a, b => by
    have ih := splitPred_append_sep p c hc a b
    by_cases hd : p d = true
    · have h1 : splitPred p (d :: (a ++ c :: b)) =
          [] :: splitPred p (a ++ c :: b) := by simp [splitPred, hd]
      have h2 : splitPred p (d :: a) = [] :: splitPred p a := by
        simp [splitPred, hd]
      rw [List.cons_append, h1, ih, h2, List.cons_append]
    · have hd2 : p d = false := by simpa using hd
      rcases hs : splitPred p a with _ | ⟨l, ls⟩
      · exact absurd hs (splitPred_ne_nil p a)
      · rw [hs] at ih
        have h1 : splitPred p (d :: (a ++ c :: b)) =
            (d :: l) :: (ls ++ splitPred p b) := by
          simp [splitPred, hd2, ih]
        have h2 : splitPred p (d :: a) = (d :: l) :: ls := by
          simp [splitPred, hd2, hs]
        rw [List.cons_append, h1, h2, List.cons_append]

/-- Every piece of a split is free of separator chars. -/
theorem splitPred_pieces (p : Char → Bool) : ∀ (s : Str) (l : Str),
    l ∈ splitPred p s → ∀ c ∈ l, p c = false
  | [], l, hl, c, hc => by
    simp [splitPred] at hl
    subst hl
    simp at hc
  | d :: s, l, hl, c, hc => by
    by_cases hd : p d = true
    · simp only [splitPred, hd, if_true, List.mem_cons] at hl
      rcases hl with rfl | hl
      · simp at hc
      · exact splitPred_pieces p s l hl c hc
    · have hd2 : p d = false := by simpa using hd
      rcases hs : splitPred p s with _ | ⟨m, ms⟩
      · exact absurd hs (splitPred_ne_nil p s)
      · simp only [splitPred, hd2, Bool.false_eq_true, if_false, hs,
          List.mem_cons] at hl
        rcases hl with rfl | hl
        · rcases List.mem_cons.1 hc with rfl | hc2
          · exact hd2
          · exact splitPred_pieces p s m (by simp [hs]) c hc2
        · exact splitPred_pieces p s l (by simp [hs, hl]) c hc

/-- The number of pieces is the separator count plus one. -/
theorem splitPred_length (p : Char → Bool) : ∀ (s : Str),
    (splitPred p s).length = s.countP p + 1
  | [] => by simp [splitPred]
  | c :: s => by
    by_cases hc : p c = true
    · simp [splitPred, hc, List.countP_cons, splitPred_length p s]
    · have hc2 : p c = false := by simpa using hc
      rcases hs : splitPred p s with _ | ⟨l, ls⟩
      · exact absurd hs (splitPred_ne_nil p s)
      · have ih := splitPred_length p s
        rw [hs] at ih
        simp only [splitPred, hc2, Bool.false_eq_true, if_false, hs]
        simp only [List.length_cons] at ih ⊢
        simp [List.countP_cons, hc2, ih]

/-- Counting a char class disjoint from the separators distributes over
the split pieces. -/
theorem splitPred_countP (p q : Char → Bool)
    (hpq : ∀ c, p c = true → q c = false) : ∀ (s : Str),
    ((splitPred p s).map (fun w => w.countP q)).sum = s.countP q
  | [] => by simp [splitPred]
  | c :: s => by
    by_cases hc : p c = true
    · have hqc : q c = false := hpq c hc
      simp [splitPred, hc, List.countP_cons, hqc, splitPred_countP p q hpq s]
    · have hc2 : p c = false := by simpa using hc
      rcases hs : splitPred p s with _ | ⟨l, ls⟩
      · exact absurd hs (splitPred_ne_nil p s)
      · have ih := splitPred_countP p q hpq s
        rw [hs] at ih
        simp only [splitPred, hc2, Bool.false_eq_true, if_false, hs]
        simp only [List.map_cons, List.sum_cons] at ih ⊢
        rw [List.countP_cons, List.countP_cons]
        cases hqc : q c <;> simp [hqc] <;> omega

theorem countNl_append (a b : Str) :
    countNl (a ++ b) = countNl a + countNl b := by
  simp [countNl, List.countP_append]

theorem countNl_cons (c : Char) (s : Str) :
    countNl (c :: s) = (if c = '\n' then 1 else 0) + countNl s := by
  simp only [countNl, List.countP_cons]
  by_cases hc : c = '\n'
  · simp [hc]
    omega
  · simp [hc]

/-- `replace("\n", "\n\0")` preserves the newline count. -/
theorem replaceNl_countNl : ∀ (s : Str), countNl (replaceNl s) = countNl s
  | [] => rfl
  | c :: s => by
    have ih := replaceNl_countNl s
    have hrep : replaceNl (c :: s) =
        (if c = '\n' then ['\n', Char.ofNat 0] else [c]) ++ replaceNl s := by
      simp [replaceNl]
    rw [hrep, countNl_append, ih, countNl_cons]
    by_cases hc : c = '\n'
    · rw [if_pos hc, if_pos hc]
      have h1 : countNl ['\n', Char.ofNat 0] = 1 := by decide
      rw [h1]
    · rw [if_neg hc, if_neg hc]
      have h1 : countNl [c] = 0 := by
        rw [show ([c] : Str) = c :: [] from rfl, countNl_cons, if_neg hc]
        rfl
      rw [h1]

/-- The total newline count of the `wrap_lines` words is the newline
count of the input. -/
theorem wrapWords_countNl (val : Str) :
    ((wrapWords val).map countNl).sum = countNl val := by
  have hdisj : ∀ c, isWrapSep c = true → decide (c = '\n') = false := by
    intro c hc
    simp only [isWrapSep, Bool.or_eq_true, decide_eq_true_eq] at hc
    rcases hc with rfl | rfl <;> decide
  have h := splitPred_countP isWrapSep (fun c => decide (c = '\n'))
    hdisj (replaceNl val)
  have h2 := replaceNl_countNl val
  calc ((wrapWords val).map countNl).sum
      = ((splitPred isWrapSep (replaceNl val)).map
          (fun w => w.countP (fun c => decide (c = '\n')))).sum := rfl
    _ = (replaceNl val).countP (fun c => decide (c = '\n')) := h
    _ = countNl (replaceNl val) := rfl
    _ = countNl val := h2

/-- Words produced for `wrap_lines` carry `'\n'` only as their final
character (in the replaced text every newline is followed by a `'\0'`
separator). -/
theorem wrapWords_nl : ∀ (val : Str) (w : Str), w ∈ wrapWords val →
    ∀ c ∈ w.dropLast, ¬ c = '\n'
  | [], w, hw, c, hc => by
    simp [wrapWords, replaceNl, splitPred] at hw
    subst hw
    simp at hc
  | d :: val, w, hw, c, hc => by
    by_cases hd : d = '\n'
    · subst hd
      have hrep : replaceNl ('\n' :: val) =
          '\n' :: Char.ofNat 0 :: replaceNl val := by simp [replaceNl]
      have hsplit : wrapWords ('\n' :: val) = ['\n'] :: wrapWords val := by
        unfold wrapWords
        rw [hrep]
        have hnl : isWrapSep '\n' = false := by decide
        have hnul : isWrapSep (Char.ofNat 0) = true := by decide
        rcases hs : splitPred isWrapSep (replaceNl val) with _ | ⟨l, ls⟩
        · exact absurd hs (splitPred_ne_nil _ _)
        · simp [splitPred, hnl, hnul, hs]
      rw [hsplit] at hw
      rcases List.mem_cons.1 hw with rfl | hw2
      · simp at hc
      · exact wrapWords_nl val w hw2 c hc
    · have hrep : replaceNl (d :: val) = d :: replaceNl val := by
        simp [replaceNl, hd]
      by_cases hds : isWrapSep d = true
      · have hsplit : wrapWords (d :: val) = [] :: wrapWords val := by
          unfold wrapWords
          rw [hrep]
          simp [splitPred, hds]
        rw [hsplit] at hw
        rcases List.mem_cons.1 hw with rfl | hw2
        · simp at hc
        · exact wrapWords_nl val w hw2 c hc
      · have hds2 : isWrapSep d = false := by simpa using hds
        rcases hs : splitPred isWrapSep (replaceNl val) with _ | ⟨m, ms⟩
        · exact absurd hs (splitPred_ne_nil _ _)
        · have hsplit : wrapWords (d :: val) = (d :: m) :: ms := by
            unfold wrapWords
            rw [hrep]
            simp [splitPred, hds2, hs]
          rw [hsplit] at hw
          rcases List.mem_cons.1 hw with rfl | hw2
          · rcases hm : m with _ | ⟨e, es⟩
            · subst hm
              simp at hc
            · subst hm
              rw [List.dropLast_cons_of_ne_nil (by simp)] at hc
              rcases List.mem_cons.1 hc with rfl | hc2
              · exact hd
              · exact wrapWords_nl val (e :: es)
                  (by unfold wrapWords; rw [hs]; simp) c hc2
          · exact wrapWords_nl val w
              (by unfold wrapWords; rw [hs]; simp [hw2]) c hc

/-- A string with no separator chars is a single piece. -/
theorem splitPred_single (p : Char → Bool) (w : Str)
    (h : ∀ c ∈ w, p c = false) : splitPred p w = [w] := by
  have h2 := splitPred_append_nosep p [] w h
  simpa [splitPred, modifyLast] using h2

/-- One step of the `wrap_lines` loop preserves the line invariants:
completed lines stay within `limit + 1`, the tracked `line_len` is the
current line's length, the space-split words of the lines gain exactly
the processed word (empties ignored), and the newline count grows by at
least the word's. -/
theorem wrapStep_inv (limit : Nat) (buf : Str) (ll : Nat) (w : Str)
    (D : List Str) (g : Str)
    (hSD : splitChar '\n' buf = D ++ [g])
    (hg : g.length = ll)
    (hD : ∀ l ∈ D, l.length ≤ limit + 1)
    (hgb : g.length ≤ limit + 1)
    (hw : w.length ≤ limit)
    (hwnl : ∀ c ∈ w.dropLast, ¬ c = '\n')
    (hwsp : ∀ c ∈ w, isWrapSep c = false) :
    ∃ D2 g2,
      splitChar '\n' (wrapStep limit (buf, ll) w).1 = D2 ++ [g2] ∧
      g2.length = (wrapStep limit (buf, ll) w).2 ∧
      (∀ l ∈ D2, l.length ≤ limit + 1) ∧
      g2.length ≤ limit + 1 ∧
      ((D2 ++ [g2]).flatMap (splitChar ' ')).filter (fun x => x ≠ []) =
        ((D ++ [g]).flatMap (splitChar ' ')).filter (fun x => x ≠ []) ++
          ([stripNl w].filter (fun x => x ≠ [])) ∧
      countNl buf + countNl w ≤ countNl (wrapStep limit (buf, ll) w).1 := by
  have hpn : ∀ c ∈ w.dropLast, (fun c => decide (c = '\n')) c = false := by
    intro c hc
    simpa using hwnl c hc
  have hps : ∀ c ∈ w, (fun c => decide (c = ' ')) c = false := by
    intro c hc
    have h2 := hwsp c hc
    simp only [isWrapSep] at h2
    exact (Bool.or_eq_false_iff.mp h2).1
  rcases hlast : w.getLast? with _ | e
  · -- w = [] : empty word, newline-free
    have hwnil : w = [] := List.getLast?_eq_none_iff.1 hlast
    subst hwnil
    have hco : countNl ([] : Str) = 0 := rfl
    by_cases hover : ll + List.length ([] : Str) > limit
    · have hover2 : limit < ll := by simpa using hover
      have hstep : wrapStep limit (buf, ll) [] = (buf ++ ['\n'], 0) := by
        simp [wrapStep, hover2]
      rw [hstep]
      refine ⟨D ++ [g], [], ?_, rfl, ?_, by simp, ?_, by simp [countNl_append, hco]⟩
      · show splitPred _ (buf ++ '\n' :: []) = (D ++ [g]) ++ [[]]
        rw [splitPred_append_sep _ '\n' (by simp) buf []]
        rw [show splitChar '\n' buf = splitPred (fun c => decide (c = '\n')) buf
          from rfl] at hSD
        rw [hSD]
        rfl
      · intro l hl
        rcases List.mem_append.1 hl with hl | hl
        · exact hD l hl
        · simp at hl
          subst hl
          omega
      · have hse : splitChar ' ' ([] : Str) = [[]] := rfl
        simp [stripNl, List.flatMap_append, hse]
    · by_cases hll : ll = 0
      · have hstep : wrapStep limit (buf, ll) [] = (buf, ll) := by
          simp [wrapStep, hover, hll]
        rw [hstep]
        exact ⟨D, g, hSD, hg, hD, hgb, by simp [stripNl], by simp [hco]⟩
      · have hover2 : ¬ limit < ll := by simpa using hover
        have hstep : wrapStep limit (buf, ll) [] = (buf ++ [' '], ll + 1) := by
          simp [wrapStep, hover2, hll]
        rw [hstep]
        have hllb : ll ≤ limit := by simpa using hover
        refine ⟨D, g ++ [' '], ?_, by simp [hg], hD, ?_, ?_, by simp [countNl_append, hco]⟩
        · show splitPred _ (buf ++ [' ']) = _
          rw [splitPred_append_nosep _ buf [' '] (by intro c hc; simp at hc; subst hc; decide)]
          rw [show splitChar '\n' buf = splitPred (fun c => decide (c = '\n')) buf
            from rfl] at hSD
          rw [hSD, modifyLast_concat]
        · simp only [List.length_append, List.length_singleton]
          omega
        · simp only [List.flatMap_append, List.filter_append]
          have hsg : splitChar ' ' (g ++ [' ']) = splitChar ' ' g ++ [[]] := by
            show splitPred _ _ = _
            rw [show g ++ [' '] = g ++ ' ' :: [] from rfl]
            rw [splitPred_append_sep _ ' ' (by simp) g []]
            rfl
          simp [hsg, stripNl, List.filter_append]
  · -- w is nonempty
    have hwne : w ≠ [] := by
      intro hnil
      rw [hnil] at hlast
      exact Option.noConfusion hlast
    have hdecomp : w = w.dropLast ++ [e] := by
      have h1 := List.dropLast_append_getLast hwne
      have h2 := List.getLast?_eq_getLast w hwne
      rw [hlast] at h2
      have h3 : w.getLast hwne = e := by
        injection h2.symm
      rw [h3] at h1
      exact h1.symm
    by_cases henl : e = '\n'
    · -- w ends in a newline: it forces a line break
      subst henl
      have hw0nl : ∀ c ∈ w.dropLast, (fun c => decide (c = '\n')) c = false := hpn
      have hw0sp : ∀ c ∈ w.dropLast, (fun c => decide (c = ' ')) c = false := by
        intro c hc
        exact hps c (by rw [hdecomp]; exact List.mem_append.2 (Or.inl hc))
      have hsplitw : splitPred (fun c => decide (c = '\n')) w =
          [w.dropLast] ++ [[]] := by
        conv_lhs => rw [hdecomp]
        rw [show w.dropLast ++ ['\n'] = w.dropLast ++ '\n' :: [] from rfl]
        rw [splitPred_append_sep _ '\n' (by simp) w.dropLast []]
        rw [splitPred_single _ _ hw0nl]
        rfl
      have hstrip : stripNl w = w.dropLast := by
        simp [stripNl, hlast]
      have hcw : 1 ≤ countNl w := by
        conv_rhs => rw [hdecomp]
        rw [countNl_append]
        have : countNl ['\n'] = 1 := by decide
        omega
      have hlen0 : w.dropLast.length = w.length - 1 := by
        conv_rhs => rw [hdecomp]
        simp
      by_cases hover : ll + w.length > limit
      · -- break, then the word (itself ending the new line)
        have hstep : wrapStep limit (buf, ll) w = (buf ++ '\n' :: w, 0) := by
          simp [wrapStep, hover, hlast]
        rw [hstep]
        refine ⟨D ++ [g] ++ [w.dropLast], [], ?_, rfl, ?_, by simp, ?_, ?_⟩
        · show splitPred _ (buf ++ '\n' :: w) = _
          rw [splitPred_append_sep _ '\n' (by simp) buf w]
          rw [show splitChar '\n' buf = splitPred (fun c => decide (c = '\n')) buf
            from rfl] at hSD
          rw [hSD, hsplitw]
          simp
        · intro l hl
          rcases List.mem_append.1 hl with hl | hl
          · rcases List.mem_append.1 hl with hl | hl
            · exact hD l hl
            · simp at hl
              subst hl
              omega
          · simp at hl
            subst hl
            omega
        · rw [hstrip]
          simp only [List.flatMap_append, List.filter_append]
          have hsw : (splitChar ' ' w.dropLast) = [w.dropLast] :=
            splitPred_single _ _ hw0sp
          have hse : (splitChar ' ' ([] : Str)) = [[]] := rfl
          simp [hsw, hse]
        · rw [countNl_append, countNl_cons]
          omega
      · -- no break before the word
        by_cases hll : ll = 0
        · have hover2 : ¬ limit < List.length w := by omega
          have hstep : wrapStep limit (buf, ll) w = (buf ++ w, 0) := by
            simp [wrapStep, hover, hover2, hll, hlast]
          rw [hstep]
          have hgnil : g = [] := List.eq_nil_of_length_eq_zero (by omega)
          refine ⟨D ++ [g ++ w.dropLast], [], ?_, rfl, ?_, by simp, ?_, ?_⟩
          · show splitPred _ (buf ++ w) = _
            conv_lhs => rw [hdecomp, ← List.append_assoc]
            rw [show buf ++ w.dropLast ++ ['\n'] =
              (buf ++ w.dropLast) ++ '\n' :: [] from by simp]
            rw [splitPred_append_sep _ '\n' (by simp) (buf ++ w.dropLast) []]
            rw [splitPred_append_nosep _ buf w.dropLast hw0nl]
            rw [show splitChar '\n' buf = splitPred (fun c => decide (c = '\n')) buf
              from rfl] at hSD
            rw [hSD, modifyLast_concat]
            rfl
          · intro l hl
            rcases List.mem_append.1 hl with hl | hl
            · exact hD l hl
            · simp only [List.mem_singleton] at hl
              subst hl
              rw [hgnil]
              simp only [List.nil_append]
              omega
          · rw [hstrip, hgnil]
            simp only [List.flatMap_append, List.filter_append]
            have hsw : (splitChar ' ' w.dropLast) = [w.dropLast] :=
              splitPred_single _ _ hw0sp
            have hse : (splitChar ' ' ([] : Str)) = [[]] := rfl
            simp [hsw, hse]
          · rw [countNl_append]
        · have hstep : wrapStep limit (buf, ll) w = (buf ++ ' ' :: w, 0) := by
            simp [wrapStep, hover, hll, hlast]
          rw [hstep]
          refine ⟨D ++ [g ++ ' ' :: w.dropLast], [], ?_, rfl, ?_, by simp, ?_, ?_⟩
          · show splitPred _ (buf ++ ' ' :: w) = _
            conv_lhs => rw [hdecomp]
            rw [show buf ++ ' ' :: (w.dropLast ++ ['\n']) =
              (buf ++ ' ' :: w.dropLast) ++ '\n' :: [] from by simp]
            rw [splitPred_append_sep _ '\n' (by simp) (buf ++ ' ' :: w.dropLast) []]
            rw [splitPred_append_nosep _ buf (' ' :: w.dropLast) (by
              intro c hc
              rcases List.mem_cons.1 hc with rfl | hc2
              · decide
              · exact hw0nl c hc2)]
            rw [show splitChar '\n' buf = splitPred (fun c => decide (c = '\n')) buf
              from rfl] at hSD
            rw [hSD, modifyLast_concat]
            rfl
          · intro l hl
            rcases List.mem_append.1 hl with hl | hl
            · exact hD l hl
            · simp only [List.mem_singleton] at hl
              subst hl
              simp only [List.length_append, List.length_cons]
              omega
          · rw [hstrip]
            simp only [List.flatMap_append, List.filter_append]
            have hsg : splitChar ' ' (g ++ ' ' :: w.dropLast) =
                splitChar ' ' g ++ [w.dropLast] := by
              show splitPred _ _ = _
              rw [splitPred_append_sep _ ' ' (by simp) g w.dropLast]
              rw [splitPred_single _ _ hw0sp]
              rfl
            have hse : (splitChar ' ' ([] : Str)) = [[]] := rfl
            simp [hsg, hse, List.filter_append]
          · rw [countNl_append, countNl_cons]
            omega
    · -- w does not end in a newline: it is newline-free
      have hwfree : ∀ c ∈ w, ¬ c = '\n' := by
        intro c hc
        rw [hdecomp] at hc
        rcases List.mem_append.1 hc with hc | hc
        · exact hwnl c hc
        · simp only [List.mem_singleton] at hc
          subst hc
          exact henl
      have hwfree2 : ∀ c ∈ w, (fun c => decide (c = '\n')) c = false := by
        intro c hc
        simpa using hwfree c hc
      have hwsp2 : ∀ c ∈ w, (fun c => decide (c = ' ')) c = false := hps
      have hstrip : stripNl w = w := by
        simp [stripNl, hlast, henl]
      have hco : countNl w = 0 := by
        simp only [countNl]
        rw [List.countP_eq_zero]
        intro c hc
        simpa using hwfree c hc
      by_cases hover : ll + w.length > limit
      · have hstep : wrapStep limit (buf, ll) w = (buf ++ '\n' :: w, w.length) := by
          simp [wrapStep, hover, hlast, henl]
        rw [hstep]
        refine ⟨D ++ [g], w, ?_, rfl, ?_, by omega, ?_, ?_⟩
        · show splitPred _ (buf ++ '\n' :: w) = _
          rw [splitPred_append_sep _ '\n' (by simp) buf w]
          rw [splitPred_single _ _ hwfree2]
          rw [show splitChar '\n' buf = splitPred (fun c => decide (c = '\n')) buf
            from rfl] at hSD
          rw [hSD]
        · intro l hl
          rcases List.mem_append.1 hl with hl | hl
          · exact hD l hl
          · simp only [List.mem_singleton] at hl
            subst hl
            omega
        · rw [hstrip]
          simp only [List.flatMap_append, List.filter_append]
          have hsw : (splitChar ' ' w) = [w] := splitPred_single _ _ hwsp2
          simp [hsw, List.filter_append]
        · rw [countNl_append, countNl_cons]
          omega
      · by_cases hll : ll = 0
        · have hover2 : ¬ limit < List.length w := by omega
          have hstep : wrapStep limit (buf, ll) w = (buf ++ w, ll + w.length) := by
            simp [wrapStep, hover, hover2, hll, hlast, henl]
          rw [hstep]
          have hgnil : g = [] := List.eq_nil_of_length_eq_zero (by omega)
          refine ⟨D, g ++ w, ?_, by simp [hg], hD, by rw [hgnil]; simpa using hw.trans (by omega), ?_, ?_⟩
          · show splitPred _ (buf ++ w) = _
            rw [splitPred_append_nosep _ buf w hwfree2]
            rw [show splitChar '\n' buf = splitPred (fun c => decide (c = '\n')) buf
              from rfl] at hSD
            rw [hSD, modifyLast_concat]
          · rw [hstrip, hgnil]
            simp only [List.nil_append, List.flatMap_append, List.filter_append]
            have hsw : (splitChar ' ' w) = [w] := splitPred_single _ _ hwsp2
            have hse : (splitChar ' ' ([] : Str)) = [[]] := rfl
            simp [hsw, hse]
          · rw [countNl_append]
        · have hstep : wrapStep limit (buf, ll) w =
              (buf ++ ' ' :: w, ll + 1 + w.length) := by
            simp [wrapStep, hover, hll, hlast, henl]
          rw [hstep]
          refine ⟨D, g ++ ' ' :: w, ?_, by simp [hg]; omega, hD, by simp; omega, ?_, ?_⟩
          · show splitPred _ (buf ++ ' ' :: w) = _
            rw [splitPred_append_nosep _ buf (' ' :: w) (by
              intro c hc
              rcases List.mem_cons.1 hc with rfl | hc2
              · decide
              · exact hwfree2 c hc2)]
            rw [show splitChar '\n' buf = splitPred (fun c => decide (c = '\n')) buf
              from rfl] at hSD
            rw [hSD, modifyLast_concat]
          · rw [hstrip]
            simp only [List.flatMap_append, List.filter_append]
            have hsg : splitChar ' ' (g ++ ' ' :: w) =
                splitChar ' ' g ++ [w] := by
              show splitPred _ _ = _
              rw [splitPred_append_sep _ ' ' (by simp) g w]
              rw [splitPred_single _ _ hwsp2]
              rfl
            simp [hsg, List.filter_append]
          · rw [countNl_append, countNl_cons]
            omega

theorem filter_singleton_append {α : Type} (p : α → Bool) (a : α) (l : List α) :
    List.filter p [a] ++ List.filter p l = List.filter p (a :: l) := by
  by_cases h : p a = true
  · simp [List.filter_cons, h]
  · have h2 : p a = false := by simpa using h
    simp [List.filter_cons, h2]

/-- The `wrap_lines` word loop keeps every completed line within
`limit + 1`, gains exactly the processed words (empties ignored), and
accumulates at least the words' newline count. -/
theorem wrapFold_inv (limit : Nat) : ∀ (ws : List Str) (buf : Str) (ll : Nat)
    (D : List Str) (g : Str),
    (∀ w ∈ ws, w.length ≤ limit ∧ (∀ c ∈ w.dropLast, ¬ c = '\n') ∧
      (∀ c ∈ w, isWrapSep c = false)) →
    splitChar '\n' buf = D ++ [g] →
    g.length = ll →
    (∀ l ∈ D, l.length ≤ limit + 1) →
    g.length ≤ limit + 1 →
    (∀ l ∈ splitChar '\n' (ws.foldl (wrapStep limit) (buf, ll)).1,
      l.length ≤ limit + 1) ∧
    ((splitChar '\n' (ws.foldl (wrapStep limit) (buf, ll)).1).flatMap
        (splitChar ' ')).filter (fun x => x ≠ []) =
      ((splitChar '\n' buf).flatMap (splitChar ' ')).filter (fun x => x ≠ []) ++
        ((ws.map stripNl).filter (fun x => x ≠ [])) ∧
    countNl buf + (ws.map countNl).sum ≤
      countNl (ws.foldl (wrapStep limit) (buf, ll)).1
  | [], buf, ll, D, g, hws, hSD, hg, hD, hgb => by
    refine ⟨?_, by simp, by simp⟩
    intro l hl
    simp only [List.foldl_nil] at hl
    rw [hSD] at hl
    rcases List.mem_append.1 hl with hl | hl
    · exact hD l hl
    · simp only [List.mem_singleton] at hl
      subst hl
      exact hgb
  | w :: ws, buf, ll, D, g, hws, hSD, hg, hD, hgb => by
    obtain ⟨hwlen, hwnl, hwsp⟩ := hws w (by simp)
    obtain ⟨D2, g2, hSD2, hg2, hD2, hgb2, hF2, hC2⟩ :=
      wrapStep_inv limit buf ll w D g hSD hg hD hgb hwlen hwnl hwsp
    have hws2 : ∀ x ∈ ws, x.length ≤ limit ∧ (∀ c ∈ x.dropLast, ¬ c = '\n') ∧
        (∀ c ∈ x, isWrapSep c = false) := fun x hx => hws x (by simp [hx])
    have ih := wrapFold_inv limit ws (wrapStep limit (buf, ll) w).1
      (wrapStep limit (buf, ll) w).2 D2 g2 hws2 hSD2 hg2 hD2 hgb2
    have hfold : (w :: ws).foldl (wrapStep limit) (buf, ll) =
        ws.foldl (wrapStep limit)
          ((wrapStep limit (buf, ll) w).1, (wrapStep limit (buf, ll) w).2) := by
      simp [List.foldl_cons]
    rw [hfold]
    refine ⟨ih.1, ?_, ?_⟩
    · rw [ih.2.1, hSD2, hF2, List.map_cons, List.append_assoc,
        filter_singleton_append, hSD]
    · have h3 := ih.2.2
      rw [List.map_cons, List.sum_cons]
      omega

/-- C5 counterexample: with limit 6 and input `"abc def"` every word fits
within the limit (3 ≤ 6), yet `wrap_lines` produces the single line
`"abc def"` of length 7 > 6 — the joining space is not counted by the
overflow check, so the packed line exceeds the limit. -/
theorem c5_counterexample :
    (∀ w ∈ wrapWords (str "abc def"), w.length ≤ 6) ∧
    wrap_lines 6 (str "abc def") = [str "abc def"] ∧
    (str "abc def").length = 7 :=
  ⟨by decide, by decide, by decide⟩

/-- C5 (amended): for every width limit and source text whose words each
fit within the limit, `wrap_lines` packs words into lines of length at
most `limit + 1` (the single joining space before a word is not counted
by the overflow check, so a line may exceed the limit by exactly one);
it never splits or reorders a word (the nonempty space-separated words
of the output lines are exactly the nonempty words of the input); and a
literal newline in the source forces a line break regardless of
remaining width (the output has at least one more line per newline). -/
theorem c5_wrap_amended (limit : Nat) (val : Str)
    (h : ∀ w ∈ wrapWords val, w.length ≤ limit) :
    (∀ l ∈ wrap_lines limit val, l.length ≤ limit + 1) ∧
    ((wrap_lines limit val).flatMap (splitChar ' ')).filter (fun x => x ≠ []) =
      ((wrapWords val).map stripNl).filter (fun x => x ≠ []) ∧
    countNl val + 1 ≤ (wrap_lines limit val).length := by
  have hws : ∀ w ∈ wrapWords val, w.length ≤ limit ∧
      (∀ c ∈ w.dropLast, ¬ c = '\n') ∧ (∀ c ∈ w, isWrapSep c = false) :=
    fun w hw => ⟨h w hw, wrapWords_nl val w hw,
      splitPred_pieces isWrapSep (replaceNl val) w hw⟩
  have hinit : splitChar '\n' ([] : Str) = [] ++ [[]] := rfl
  have hfold := wrapFold_inv limit (wrapWords val) [] 0 [] [] hws hinit rfl
    (by simp) (by simp)
  have hwl : wrap_lines limit val =
      splitChar '\n' ((wrapWords val).foldl (wrapStep limit) ([], 0)).1 := rfl
  refine ⟨?_, ?_, ?_⟩
  · rw [hwl]
    exact hfold.1
  · rw [hwl]
    have h2 := hfold.2.1
    rw [show ((splitChar '\n' ([] : Str)).flatMap (splitChar ' ')).filter
      (fun x => x ≠ []) = [] from rfl] at h2
    simpa using h2
  · rw [hwl]
    have h3 := hfold.2.2
    have hsum := wrapWords_countNl val
    have hlen := splitPred_length (fun c => decide (c = '\n'))
      ((wrapWords val).foldl (wrapStep limit) ([], 0)).1
    have hcnt : countNl ((wrapWords val).foldl (wrapStep limit) ([], 0)).1 =
        List.countP (fun c => decide (c = '\n'))
          ((wrapWords val).foldl (wrapStep limit) ([], 0)).1 := rfl
    have hco : countNl ([] : Str) = 0 := rfl
    have hsc : splitChar '\n' ((wrapWords val).foldl (wrapStep limit) ([], 0)).1 =
        splitPred (fun c => decide (c = '\n'))
          ((wrapWords val).foldl (wrapStep limit) ([], 0)).1 := rfl
    rw [hsc]
    omega

/-- Witness for C5 (amended) at limit 10 and input `"one two three"`. -/
theorem c5_wrap_amended_witness :
    (∀ l ∈ wrap_lines 10 (str "one two three"), l.length ≤ 11) ∧
    ((wrap_lines 10 (str "one two three")).flatMap (splitChar ' ')).filter
        (fun x => x ≠ []) =
      ((wrapWords (str "one two three")).map stripNl).filter (fun x => x ≠ []) ∧
    countNl (str "one two three") + 1 ≤ (wrap_lines 10 (str "one two three")).length :=
  c5_wrap_amended 10 (str "one two three") (by decide)

/-! ### C8: regex-engine head computations -/

theorem isW_isSp (ch : Char) (h : isW ch = true) : isSp ch = false := by
  by_cases hsp : ch = ' '
  · subst hsp
    exact absurd h (by decide)
  · simp [isSp, hsp]

theorem isW_isSpW (ch : Char) (h : isW ch = true) : isSpW ch = true := by
  simp [isSpW, h]

theorem isW_isWdd (ch : Char) (h : isW ch = true) : isWdd ch = true := by
  simp [isWdd, h]

/-- Boundary form used by the repetition head lemmas: the class fails on
the first char of the rest (or the rest is empty). -/
def Boundary (p : Char → Bool) (r : Str) : Prop :=
  ∀ ch, r.head? = some ch → p ch = false

theorem boundary_nil (p : Char → Bool) : Boundary p [] := by
  intro ch h
  exact Option.noConfusion h

theorem boundary_cons (p : Char → Bool) (ch : Char) (t : Str)
    (h : p ch = false) : Boundary p (ch :: t) := by
  intro d hd
  simp only [List.head?_cons, Option.some.injEq] at hd
  subst hd
  exact h

theorem boundary_word (p : Char → Bool) (w : Str)
    (h : ∀ c ∈ w, p c = false) : Boundary p w := by
  intro d hd
  exact h d (List.mem_of_mem_head? hd)

theorem takeWhile_all_append (p : Char → Bool) : ∀ (w r : Str),
    (∀ c ∈ w, p c = true) → Boundary p r →
    (w ++ r).takeWhile p = w ∧ (w ++ r).dropWhile p = r
  | [], r, _, hr => by
    rcases r with _ | ⟨c, t⟩
    · exact ⟨rfl, rfl⟩
    · have hc : p c = false := hr c rfl
      simp [List.takeWhile, List.dropWhile, hc]
  | d :: w, r, hw, hr => by
    have hd : p d = true := hw d (by simp)
    have ih := takeWhile_all_append p w r (fun c hc => hw c (by simp [hc])) hr
    simp [List.takeWhile, List.dropWhile, hd, ih.1, ih.2]

/-- Greedy star: under a clean boundary, the first split consumes the
whole run. -/
theorem starSplits_head (p : Char → Bool) (w r : Str)
    (hw : ∀ c ∈ w, p c = true) (hr : Boundary p r) :
    starSplits p (w ++ r) = (w, r) :: (List.range w.length).reverse.map
      (fun k => (w.take k, w.drop k ++ r)) := by
  obtain ⟨ht, hd⟩ := takeWhile_all_append p w r hw hr
  simp only [starSplits, ht, hd]
  rw [List.range_succ, List.reverse_append]
  simp only [List.reverse_singleton, List.singleton_append, List.map_cons]
  rw [List.take_length, List.drop_length, List.nil_append]

theorem head_starC (p : Char → Bool) (w r : Str) (pos : Nat)
    (hw : ∀ c ∈ w, p c = true) (hr : Boundary p r) :
    HeadIs (.starC p) pos (w ++ r) [] (pos + w.length) r := by
  have hm : reMatch (.starC p) pos (w ++ r) =
      ([], pos + w.length, r) ::
        ((List.range w.length).reverse.map
          (fun k => (w.take k, w.drop k ++ r))).map
            (fun tr => (([] : Caps), pos + tr.1.length, tr.2)) := by
    simp only [reMatch, starSplits_head p w r hw hr, List.map_cons]
  exact ⟨_, hm⟩

/-- Greedy plus: under a clean boundary, the first split consumes the
whole (nonempty) run. -/
theorem head_plusC (p : Char → Bool) (w r : Str) (pos : Nat) (hne : w ≠ [])
    (hw : ∀ c ∈ w, p c = true) (hr : Boundary p r) :
    HeadIs (.plusC p) pos (w ++ r) [] (pos + w.length) r := by
  have hm : reMatch (.plusC p) pos (w ++ r) =
      ([], pos + w.length, r) ::
        (((List.range w.length).reverse.map
          (fun k => (w.take k, w.drop k ++ r))).filter
            (fun tr => tr.1 ≠ [])).map
              (fun tr => (([] : Caps), pos + tr.1.length, tr.2)) := by
    simp only [reMatch, starSplits_head p w r hw hr, List.filter_cons]
    rw [if_pos (by simpa using hne)]
    simp only [List.map_cons]
  exact ⟨_, hm⟩

theorem head_eps (pos : Nat) (s : Str) : HeadIs .eps pos s [] pos s :=
  ⟨[], rfl⟩

theorem head_bol (s : Str) : HeadIs .bol 0 s [] 0 s :=
  ⟨[], by simp [reMatch]⟩

theorem head_eol (pos : Nat) : HeadIs .eol pos [] [] pos [] :=
  ⟨[], by simp [reMatch]⟩

theorem head_cls (p : Char → Bool) (ch : Char) (t : Str) (pos : Nat)
    (h : p ch = true) : HeadIs (.cls p) pos (ch :: t) [] (pos + 1) t :=
  ⟨[], by simp [reMatch, h]⟩

theorem head_seq {a b : RE} {pos : Nat} {s : Str} {ca : Caps} {p1 : Nat}
    {r1 : Str} {cb : Caps} {p2 : Nat} {r2 : Str}
    (hha : HeadIs a pos s ca p1 r1) (hhb : HeadIs b p1 r1 cb p2 r2) :
    HeadIs (.seq a b) pos s (ca ++ cb) p2 r2 := by
  obtain ⟨ta, ha⟩ := hha
  obtain ⟨tb, hb⟩ := hhb
  refine ⟨(tb.map (fun y => (ca ++ y.1, y.2.1, y.2.2))) ++
    (ta.flatMap (fun x =>
      (reMatch b x.2.1 x.2.2).map (fun y => (x.1 ++ y.1, y.2.1, y.2.2)))), ?_⟩
  simp only [reMatch, ha, List.flatMap_cons, hb, List.map_cons,
    List.cons_append]

theorem head_grp {g : GName} {a : RE} {pos : Nat} {s : Str} {ca : Caps}
    {p1 : Nat} {r1 : Str} {v : Str} (hha : HeadIs a pos s ca p1 r1)
    (hv : s.take (p1 - pos) = v) :
    HeadIs (.grp g a) pos s (ca ++ [(g, v)]) p1 r1 := by
  obtain ⟨ta, ha⟩ := hha
  exact ⟨ta.map (fun x => (x.1 ++ [(g, s.take (x.2.1 - pos))], x.2.1, x.2.2)),
    by simp [reMatch, ha, hv]⟩

/-- A capture group around a greedy plus captures exactly the run. -/
theorem head_grp_plusC (g : GName) (p : Char → Bool) (w r : Str) (pos : Nat)
    (hne : w ≠ []) (hw : ∀ c ∈ w, p c = true) (hr : Boundary p r) :
    HeadIs (.grp g (.plusC p)) pos (w ++ r) [(g, w)] (pos + w.length) r := by
  have h := head_grp (g := g) (head_plusC p w r pos hne hw hr) (v := w) ?_
  · simpa using h
  · rw [Nat.add_sub_cancel_left]
    exact List.take_left w r

theorem head_opt {a : RE} {pos : Nat} {s : Str} {ca : Caps} {p1 : Nat}
    {r1 : Str} (hha : HeadIs a pos s ca p1 r1) :
    HeadIs (.opt a) pos s ca p1 r1 := by
  obtain ⟨ta, ha⟩ := hha
  exact ⟨ta ++ [([], pos, s)], by simp [reMatch, ha]⟩

theorem opt_none {a : RE} {pos : Nat} {s : Str}
    (h : reMatch a pos s = []) : HeadIs (.opt a) pos s [] pos s :=
  ⟨[], by simp [reMatch, h]⟩

theorem head_alt_left {a b : RE} {pos : Nat} {s : Str} {ca : Caps} {p1 : Nat}
    {r1 : Str} (hha : HeadIs a pos s ca p1 r1) :
    HeadIs (.alt a b) pos s ca p1 r1 := by
  obtain ⟨ta, ha⟩ := hha
  exact ⟨ta ++ reMatch b pos s, by simp [reMatch, ha]⟩

theorem head_alt_right {a b : RE} {pos : Nat} {s : Str} {cb : Caps} {p1 : Nat}
    {r1 : Str} (hna : reMatch a pos s = [])
    (hhb : HeadIs b pos s cb p1 r1) : HeadIs (.alt a b) pos s cb p1 r1 := by
  obtain ⟨tb, hb⟩ := hhb
  exact ⟨tb, by simp [reMatch, hna, hb]⟩

theorem seq_nil_left {a b : RE} {pos : Nat} {s : Str}
    (h : reMatch a pos s = []) : reMatch (.seq a b) pos s = [] := by
  simp [reMatch, h]

theorem cls_nil_or_fail {p : Char → Bool} {pos : Nat} {s : Str}
    (h : ∀ ch, s.head? = some ch → p ch = false) :
    reMatch (.cls p) pos s = [] := by
  rcases s with _ | ⟨c, t⟩
  · rfl
  · have hc : p c = false := h c rfl
    simp [reMatch, hc]

theorem plusC_nil (p : Char → Bool) (pos : Nat) :
    reMatch (.plusC p) pos [] = [] := rfl

theorem plusC_headfail {p : Char → Bool} {pos : Nat} {c : Char} {s : Str}
    (h : p c = false) : reMatch (.plusC p) pos (c :: s) = [] := by
  simp [reMatch, starSplits, List.takeWhile, List.dropWhile, h, List.range_succ]

/-- A successful head at position 0 determines `Regex::captures`. -/
theorem reCaptures_of_head {re : RE} {s : Str} {c : Caps} {p2 : Nat} {r : Str}
    (h : HeadIs re 0 s c p2 r) : reCaptures re s = some c := by
  obtain ⟨tl, hl⟩ := h
  rcases s with _ | ⟨d, t⟩ <;> simp [reCaptures, reSearch, hl]

theorem head_starC_zero (p : Char → Bool) (s : Str) (pos : Nat)
    (hr : Boundary p s) : HeadIs (.starC p) pos s [] pos s := by
  have h := head_starC p [] s pos (by simp) hr
  simpa using h

theorem opt_cls_nil (p : Char → Bool) (pos : Nat) :
    HeadIs (.opt (.cls p)) pos [] [] pos [] :=
  opt_none rfl

theorem boundary_isSp_word (w : Str) (hw : ∀ c ∈ w, isW c = true) :
    Boundary isSp w :=
  boundary_word isSp w (fun c hc => isW_isSp c (hw c hc))

theorem head_lit (ch : Char) (t : Str) (pos : Nat) :
    HeadIs (lit ch) pos (ch :: t) [] (pos + 1) t :=
  head_cls _ ch t pos (by simp)

theorem order_rt (r c : Str) (ls : List Str) (hr : IsWord r) (hc : IsWord c)
    (hls : ls.contains c = true) :
    Shape.order.try_match r ls (r ++ str ", " ++ c) = some ⟨r, c, []⟩ := by
  obtain ⟨hrne, hrw⟩ := hr
  obtain ⟨hcne, hcw⟩ := hc
  have hin : r ++ str ", " ++ c = r ++ ',' :: ' ' :: (c ++ []) := by
    simp [str]
  have hbW : Boundary isW (',' :: ' ' :: (c ++ [])) :=
    boundary_cons _ _ _ (by decide)
  have hbS : Boundary isSp (',' :: ' ' :: (c ++ [])) :=
    boundary_cons _ _ _ (by decide)
  have hbc : Boundary isSp (c ++ []) := by
    rw [List.append_nil]
    exact boundary_isSp_word c hcw
  have hchain :=
    head_seq (head_bol (r ++ ',' :: ' ' :: (c ++ [])))
      (head_seq (head_grp_plusC .self isW r (',' :: ' ' :: (c ++ [])) 0
          hrne hrw hbW)
        (head_seq (head_starC_zero isSp (',' :: ' ' :: (c ++ [])) _ hbS)
          (head_seq (head_lit ',' (' ' :: (c ++ [])) _)
            (head_seq (head_starC isSp [' '] (c ++ []) _ (by decide) hbc)
              (head_seq (head_grp_plusC .cmd isW c [] _ hcne hcw
                  (boundary_nil isW))
                (head_seq (head_starC_zero isSp [] _ (boundary_nil isSp))
                  (head_seq (opt_cls_nil isDotBang _)
                    (head_seq (head_eol _) (head_eps _ [])))))))))
  have hcap := reCaptures_of_head hchain
  have hcap2 : reCaptures
      (.seq .bol (.seq (.grp .self (.plusC isW)) (.seq (.starC isSp)
        (.seq (lit ',') (.seq (.starC isSp) (.seq (.grp .cmd (.plusC isW))
          (.seq (.starC isSp) (.seq (.opt (.cls isDotBang))
            (.seq .eol .eps)))))))))
      (r ++ ',' :: ' ' :: (c ++ [])) =
      some [(.self, r), (.cmd, c)] := by
    rw [hcap]
    simp
  rw [hin]
  simp only [Shape.try_match, Shape.order, tryMatch, rcat, List.foldr]
  rw [hcap2]
  have hmem : c ∈ ls := List.mem_of_elem_eq_true hls
  simp [capsFind, hmem, collectArgs, collectArgsGo]

theorem boundary_append_word (p : Char → Bool) (w t : Str) (hne : w ≠ [])
    (hw : ∀ c ∈ w, isW c = true) (himp : ∀ ch, isW ch = true → p ch = false) :
    Boundary p (w ++ t) := by
  rcases w with _ | ⟨w0, wt⟩
  · exact absurd rfl hne
  · exact boundary_cons p w0 (wt ++ t) (himp w0 (hw w0 (by simp)))

/-- Greedy plus over a single char followed by a clean boundary yields
exactly one result. -/
theorem plusC_single (p : Char → Bool) (ch : Char) (r : Str) (pos : Nat)
    (hch : p ch = true) (hr : Boundary p r) :
    reMatch (.plusC p) pos (ch :: r) = [([], pos + 1, r)] := by
  have h := starSplits_head p [ch] r (by simpa using hch) hr
  simp only [reMatch]
  rw [show (ch :: r) = [ch] ++ r from rfl, h]
  simp [List.range_succ]

theorem unary_order_rt (r c a : Str) (ls : List Str) (hr : IsWord r)
    (hc : IsWord c) (ha : IsWord a) (hls : ls.contains c = true) :
    Shape.unary_order.try_match r ls (r ++ str ", " ++ c ++ str " " ++ a) =
      some ⟨r, c, [a]⟩ := by
  obtain ⟨hrne, hrw⟩ := hr
  obtain ⟨hcne, hcw⟩ := hc
  obtain ⟨hane, haw⟩ := ha
  have hin : r ++ str ", " ++ c ++ str " " ++ a =
      r ++ ',' :: ' ' :: (c ++ ' ' :: (a ++ [])) := by
    simp [str]
  have hbW : Boundary isW (',' :: ' ' :: (c ++ ' ' :: (a ++ []))) :=
    boundary_cons _ _ _ (by decide)
  have hbS : Boundary isSp (',' :: ' ' :: (c ++ ' ' :: (a ++ []))) :=
    boundary_cons _ _ _ (by decide)
  have hbc : Boundary isSp (c ++ ' ' :: (a ++ [])) :=
    boundary_append_word isSp c _ hcne hcw isW_isSp
  have hbca : Boundary isW (' ' :: (a ++ [])) :=
    boundary_cons _ _ _ (by decide)
  have hba : Boundary isSp (a ++ []) := by
    rw [List.append_nil]
    exact boundary_isSp_word a haw
  have hchain :=
    head_seq (head_bol (r ++ ',' :: ' ' :: (c ++ ' ' :: (a ++ []))))
      (head_seq (head_grp_plusC .self isW r (',' :: ' ' :: (c ++ ' ' :: (a ++ []))) 0
          hrne hrw hbW)
        (head_seq (head_starC_zero isSp (',' :: ' ' :: (c ++ ' ' :: (a ++ []))) _ hbS)
          (head_seq (head_lit ',' (' ' :: (c ++ ' ' :: (a ++ []))) _)
            (head_seq (head_starC isSp [' '] (c ++ ' ' :: (a ++ [])) _ (by decide) hbc)
              (head_seq (head_grp_plusC .cmd isW c (' ' :: (a ++ [])) _ hcne hcw hbca)
                (head_seq (head_plusC isSp [' '] (a ++ []) _ (by simp) (by decide) hba)
                  (head_seq (head_grp_plusC (.num 0) isW a [] _ hane haw
                      (boundary_nil isW))
                    (head_seq (head_starC_zero isSp [] _ (boundary_nil isSp))
                      (head_seq (opt_cls_nil isDotBang _)
                        (head_seq (head_eol _) (head_eps _ [])))))))))))
  have hcap := reCaptures_of_head hchain
  have hcap2 : reCaptures
      (.seq .bol (.seq (.grp .self (.plusC isW)) (.seq (.starC isSp)
        (.seq (lit ',') (.seq (.starC isSp) (.seq (.grp .cmd (.plusC isW))
          (.seq (.plusC isSp) (.seq (.grp (.num 0) (.plusC isW))
            (.seq (.starC isSp) (.seq (.opt (.cls isDotBang))
              (.seq .eol .eps)))))))))))
      (r ++ ',' :: ' ' :: (c ++ ' ' :: (a ++ []))) =
      some [(.self, r), (.cmd, c), (.num 0, a)] := by
    rw [hcap]
    simp
  rw [hin]
  simp only [Shape.try_match, Shape.unary_order, tryMatch, rcat, List.foldr]
  rw [hcap2]
  have hmem : c ∈ ls := List.mem_of_elem_eq_true hls
  simp [capsFind, hmem, collectArgs, collectArgsGo]

set_option maxHeartbeats 1000000 in
theorem invoke_rt (r c : Str) (ls : List Str) (hr : IsWord r) (hc : IsWord c)
    (hls : ls.contains c = true) :
    Shape.invoke.try_match r ls (r ++ str "(" ++ c ++ str ")") =
      some ⟨r, c, []⟩ := by
  obtain ⟨hrne, hrw⟩ := hr
  obtain ⟨hcne, hcw⟩ := hc
  have hin : r ++ str "(" ++ c ++ str ")" = r ++ '(' :: (c ++ [')']) := by
    simp [str]
  have hbW : Boundary isW ('(' :: (c ++ [')'])) :=
    boundary_cons _ _ _ (by decide)
  have hbS : Boundary isSp ('(' :: (c ++ [')'])) :=
    boundary_cons _ _ _ (by decide)
  have hchain :=
    head_seq (head_bol (r ++ '(' :: (c ++ [')'])))
      (head_seq (head_grp_plusC .self isW r ('(' :: (c ++ [')'])) 0
          hrne hrw hbW)
        (head_seq (head_starC_zero isSp ('(' :: (c ++ [')'])) _ hbS)
          (head_seq (head_lit '(' (c ++ [')']) _)
            (head_seq (head_grp_plusC .cmd isSpW c [')'] _ hcne
                (fun ch hch => isW_isSpW ch (hcw ch hch))
                (boundary_cons _ ')' [] (by decide)))
              (head_seq (head_lit ')' [] _)
                (head_seq (head_eol _) (head_eps _ [])))))))
  have hcap := reCaptures_of_head hchain
  have hcap2 : reCaptures
      (.seq .bol (.seq (.grp .self (.plusC isW)) (.seq (.starC isSp)
        (.seq (lit '(') (.seq (.grp .cmd (.plusC isSpW))
          (.seq (lit ')') (.seq .eol .eps)))))))
      (r ++ '(' :: (c ++ [')'])) = some [(.self, r), (.cmd, c)] := by
    rw [hcap]
    simp
  rw [hin]
  simp only [Shape.try_match, Shape.invoke, tryMatch, rcat, List.foldr]
  rw [hcap2]
  have hmem : c ∈ ls := List.mem_of_elem_eq_true hls
  simp [capsFind, hmem, collectArgs, collectArgsGo]

theorem head_sepAlt_dot (t : Str) (pos : Nat) :
    HeadIs sepAlt pos ('.' :: t) [] (pos + 1) t := by
  simp only [sepAlt, rcat, List.foldr]
  exact head_alt_right
    (seq_nil_left (cls_nil_or_fail (boundary_cons _ '.' t (by decide))))
    (head_alt_left (head_lit '.' t pos))

set_option maxHeartbeats 1000000 in
theorem unary_invoke_rt (r c a : Str) (ls : List Str) (hr : IsWord r)
    (hc : IsWord c) (ha : IsWord a) (hls : ls.contains c = true) :
    Shape.unary_invoke.try_match r ls
      (r ++ str "." ++ c ++ str "(" ++ a ++ str ")") = some ⟨r, c, [a]⟩ := by
  obtain ⟨hrne, hrw⟩ := hr
  obtain ⟨hcne, hcw⟩ := hc
  obtain ⟨hane, haw⟩ := ha
  have hin : r ++ str "." ++ c ++ str "(" ++ a ++ str ")" =
      r ++ '.' :: (c ++ '(' :: (a ++ [')'])) := by
    simp [str]
  have hbW : Boundary isW ('.' :: (c ++ '(' :: (a ++ [')']))) :=
    boundary_cons _ _ _ (by decide)
  have hbS : Boundary isSp ('.' :: (c ++ '(' :: (a ++ [')']))) :=
    boundary_cons _ _ _ (by decide)
  have hbc : Boundary isSp (c ++ '(' :: (a ++ [')'])) :=
    boundary_append_word isSp c _ hcne hcw isW_isSp
  have hbcw : Boundary isW ('(' :: (a ++ [')'])) :=
    boundary_cons _ _ _ (by decide)
  have hba : Boundary isSp (a ++ [')']) :=
    boundary_append_word isSp a _ hane haw isW_isSp
  have hargchain :=
    head_seq (head_lit '(' (a ++ [')']) (0 + r.length + 1 + c.length))
      (head_seq (head_starC_zero isSp (a ++ [')']) _ hba)
        (head_seq (head_grp_plusC (.num 0) isWdd a [')'] _ hane
            (fun ch hch => isW_isWdd ch (haw ch hch))
            (boundary_cons _ ')' [] (by decide)))
          (head_seq (head_starC_zero isSp [')'] _
              (boundary_cons _ ')' [] (by decide)))
            (head_seq (head_lit ')' [] _) (head_eps _ [])))))
  have hchain :=
    head_seq (head_bol (r ++ '.' :: (c ++ '(' :: (a ++ [')']))))
      (head_seq (head_grp_plusC .self isW r ('.' :: (c ++ '(' :: (a ++ [')']))) 0
          hrne hrw hbW)
        (head_seq (head_starC_zero isSp ('.' :: (c ++ '(' :: (a ++ [')']))) _ hbS)
          (head_seq (head_sepAlt_dot (c ++ '(' :: (a ++ [')'])) _)
            (head_seq (head_starC_zero isSp (c ++ '(' :: (a ++ [')'])) _ hbc)
              (head_seq (head_grp_plusC .cmd isW c ('(' :: (a ++ [')'])) _
                  hcne hcw hbcw)
                (head_seq (head_opt hargchain)
                  (head_seq (head_eol _) (head_eps _ []))))))))
  have hcap := reCaptures_of_head hchain
  have hcap2 : reCaptures
      (.seq .bol (.seq (.grp .self (.plusC isW)) (.seq (.starC isSp)
        (.seq sepAlt (.seq (.starC isSp) (.seq (.grp .cmd (.plusC isW))
          (.seq (.opt (.seq (lit '(') (.seq (.starC isSp)
            (.seq (.grp (.num 0) (.plusC isWdd)) (.seq (.starC isSp)
              (.seq (lit ')') .eps))))))
            (.seq .eol .eps))))))))
      (r ++ '.' :: (c ++ '(' :: (a ++ [')']))) =
      some [(.self, r), (.cmd, c), (.num 0, a)] := by
    rw [hcap]
    simp
  rw [hin]
  simp only [Shape.try_match, Shape.unary_invoke, tryMatch, rcat, List.foldr]
  rw [hcap2]
  have hmem : c ∈ ls := List.mem_of_elem_eq_true hls
  simp [capsFind, hmem, collectArgs, collectArgsGo]

set_option maxHeartbeats 1000000 in
theorem binary_invoke_rt (r c a b : Str) (ls : List Str) (hr : IsWord r)
    (hc : IsWord c) (ha : IsWord a) (hb : IsWord b)
    (hls : ls.contains c = true) :
    Shape.binary_invoke.try_match r ls
      (r ++ str "." ++ c ++ str "(" ++ a ++ str ", " ++ b ++ str ")") =
      some ⟨r, c, [a, b]⟩ := by
  obtain ⟨hrne, hrw⟩ := hr
  obtain ⟨hcne, hcw⟩ := hc
  obtain ⟨hane, haw⟩ := ha
  obtain ⟨hbne, hbw⟩ := hb
  have hin : r ++ str "." ++ c ++ str "(" ++ a ++ str ", " ++ b ++ str ")" =
      r ++ '.' :: (c ++ '(' :: (a ++ ',' :: ' ' :: (b ++ [')']))) := by
    simp [str]
  have hbW : Boundary isW ('.' :: (c ++ '(' :: (a ++ ',' :: ' ' :: (b ++ [')'])))) :=
    boundary_cons _ _ _ (by decide)
  have hbS : Boundary isSp ('.' :: (c ++ '(' :: (a ++ ',' :: ' ' :: (b ++ [')'])))) :=
    boundary_cons _ _ _ (by decide)
  have hbc : Boundary isSp (c ++ '(' :: (a ++ ',' :: ' ' :: (b ++ [')']))) :=
    boundary_append_word isSp c _ hcne hcw isW_isSp
  have hbcw : Boundary isW ('(' :: (a ++ ',' :: ' ' :: (b ++ [')']))) :=
    boundary_cons _ _ _ (by decide)
  have hba : Boundary isSp (a ++ ',' :: ' ' :: (b ++ [')'])) :=
    boundary_append_word isSp a _ hane haw isW_isSp
  have hbb : Boundary isSp (b ++ [')']) :=
    boundary_append_word isSp b _ hbne hbw isW_isSp
  have hargchain :=
    head_seq (head_lit '(' (a ++ ',' :: ' ' :: (b ++ [')']))
        (0 + r.length + 1 + c.length))
      (head_seq (head_starC_zero isSp (a ++ ',' :: ' ' :: (b ++ [')'])) _ hba)
        (head_seq (head_grp_plusC (.num 0) isWdd a (',' :: ' ' :: (b ++ [')'])) _
            hane (fun ch hch => isW_isWdd ch (haw ch hch))
            (boundary_cons _ ',' _ (by decide)))
          (head_seq (head_starC_zero isSp (',' :: ' ' :: (b ++ [')'])) _
              (boundary_cons _ ',' _ (by decide)))
            (head_seq (head_lit ',' (' ' :: (b ++ [')'])) _)
              (head_seq (head_starC isSp [' '] (b ++ [')']) _ (by decide) hbb)
                (head_seq (head_grp_plusC (.num 1) isWdd b [')'] _ hbne
                    (fun ch hch => isW_isWdd ch (hbw ch hch))
                    (boundary_cons _ ')' [] (by decide)))
                  (head_seq (head_starC_zero isSp [')'] _
                      (boundary_cons _ ')' [] (by decide)))
                    (head_seq (head_lit ')' [] _) (head_eps _ [])))))))))
  have hchain :=
    head_seq (head_bol (r ++ '.' :: (c ++ '(' :: (a ++ ',' :: ' ' :: (b ++ [')'])))))
      (head_seq (head_grp_plusC .self isW r
          ('.' :: (c ++ '(' :: (a ++ ',' :: ' ' :: (b ++ [')'])))) 0 hrne hrw hbW)
        (head_seq (head_starC_zero isSp
            ('.' :: (c ++ '(' :: (a ++ ',' :: ' ' :: (b ++ [')'])))) _ hbS)
          (head_seq (head_sepAlt_dot (c ++ '(' :: (a ++ ',' :: ' ' :: (b ++ [')']))) _)
            (head_seq (head_starC_zero isSp
                (c ++ '(' :: (a ++ ',' :: ' ' :: (b ++ [')']))) _ hbc)
              (head_seq (head_grp_plusC .cmd isW c
                  ('(' :: (a ++ ',' :: ' ' :: (b ++ [')']))) _ hcne hcw hbcw)
                (head_seq (head_opt hargchain)
                  (head_seq (head_eol _) (head_eps _ []))))))))
  have hcap := reCaptures_of_head hchain
  have hcap2 : reCaptures
      (.seq .bol (.seq (.grp .self (.plusC isW)) (.seq (.starC isSp)
        (.seq sepAlt (.seq (.starC isSp) (.seq (.grp .cmd (.plusC isW))
          (.seq (.opt (.seq (lit '(') (.seq (.starC isSp)
            (.seq (.grp (.num 0) (.plusC isWdd)) (.seq (.starC isSp)
              (.seq (lit ',') (.seq (.starC isSp)
                (.seq (.grp (.num 1) (.plusC isWdd)) (.seq (.starC isSp)
                  (.seq (lit ')') .eps))))))))))
            (.seq .eol .eps))))))))
      (r ++ '.' :: (c ++ '(' :: (a ++ ',' :: ' ' :: (b ++ [')'])))) =
      some [(.self, r), (.cmd, c), (.num 0, a), (.num 1, b)] := by
    rw [hcap]
    simp
  rw [hin]
  simp only [Shape.try_match, Shape.binary_invoke, tryMatch, rcat, List.foldr]
  rw [hcap2]
  have hmem : c ∈ ls := List.mem_of_elem_eq_true hls
  simp [capsFind, hmem, collectArgs, collectArgsGo]

theorem seq_mem {a b : RE} {pos : Nat} {s : Str} {x : Caps × Nat × Str}
    (hx : x ∈ reMatch (.seq a b) pos s) :
    ∃ y ∈ reMatch a pos s, ∃ z ∈ reMatch b y.2.1 y.2.2,
      x = (y.1 ++ z.1, z.2.1, z.2.2) := by
  simp only [reMatch, List.mem_flatMap, List.mem_map] at hx
  obtain ⟨y, hy, z, hz, rfl⟩ := hx
  exact ⟨y, hy, z, hz, rfl⟩

theorem grp_mem {g : GName} {a : RE} {pos : Nat} {s : Str}
    {x : Caps × Nat × Str} (hx : x ∈ reMatch (.grp g a) pos s) :
    ∃ y ∈ reMatch a pos s, x.2 = y.2 := by
  simp only [reMatch, List.mem_map] at hx
  obtain ⟨y, hy, rfl⟩ := hx
  exact ⟨y, hy, rfl⟩

/-- Every result of a greedy plus over a clean span consumes a nonempty
prefix of the run. -/
theorem plusC_mem {p : Char → Bool} {pos : Nat} {w r : Str}
    {x : Caps × Nat × Str} (hw : ∀ c ∈ w, p c = true) (hr : Boundary p r)
    (hx : x ∈ reMatch (.plusC p) pos (w ++ r)) :
    ∃ k, 0 < k ∧ k ≤ w.length ∧ x.2.2 = w.drop k ++ r := by
  simp only [reMatch, starSplits_head p w r hw hr] at hx
  simp only [List.mem_map, List.mem_filter, List.mem_cons, List.mem_reverse,
    List.mem_range] at hx
  obtain ⟨tr, ⟨htr | htr, hne⟩, rfl⟩ := hx
  · subst htr
    have hwne : w ≠ [] := by simpa using hne
    refine ⟨w.length, ?_, le_refl _, ?_⟩
    · exact List.length_pos.2 hwne
    · simp [List.drop_length]
  · obtain ⟨k, hk, rfl⟩ := htr
    have hkpos : 0 < k := by
      rcases Nat.eq_zero_or_pos k with rfl | h
      · simp at hne
      · exact h
    exact ⟨k, hkpos, Nat.le_of_lt hk, rfl⟩

theorem reMatch_bol_zero (s : Str) : reMatch .bol 0 s = [([], 0, s)] := rfl

theorem reMatch_opt (a : RE) (pos : Nat) (s : Str) :
    reMatch (.opt a) pos s = reMatch a pos s ++ [([], pos, s)] := rfl

theorem reMatch_seq_flat (a b : RE) (pos : Nat) (s : Str) :
    reMatch (.seq a b) pos s = (reMatch a pos s).flatMap (fun x =>
      (reMatch b x.2.1 x.2.2).map (fun y => (x.1 ++ y.1, y.2.1, y.2.2))) := rfl

/-- When every result of the optional prefix kills the continuation, the
engine falls back to the no-consume branch of `(?:…)?`. -/
theorem head_seq_opt_skip {P b : RE} {pos : Nat} {s : Str} {cb : Caps}
    {p2 : Nat} {r2 : Str}
    (hfail : (reMatch P pos s).flatMap (fun x =>
      (reMatch b x.2.1 x.2.2).map (fun y => (x.1 ++ y.1, y.2.1, y.2.2))) = [])
    (hb : HeadIs b pos s cb p2 r2) :
    HeadIs (.seq (.opt P) b) pos s cb p2 r2 := by
  obtain ⟨tb, htb⟩ := hb
  have hm : reMatch (.seq (.opt P) b) pos s =
      (([] : Caps) ++ cb, p2, r2) ::
        tb.map (fun y => (([] : Caps) ++ y.1, y.2.1, y.2.2)) := by
    rw [reMatch_seq_flat, reMatch_opt, List.flatMap_append, hfail,
      List.nil_append]
    have hsing : ([((([] : Caps), pos, s))] : List (Caps × Nat × Str)).flatMap
        (fun x => (reMatch b x.2.1 x.2.2).map
          (fun y => (x.1 ++ y.1, y.2.1, y.2.2))) =
        (reMatch b pos s).map
          (fun y => (([] : Caps) ++ y.1, y.2.1, y.2.2)) := by
      simp
    rw [hsing, htb, List.map_cons]
  exact ⟨_, hm⟩

set_option maxHeartbeats 1600000 in
theorem do_with_rt (r c a : Str) (ls : List Str) (hr : IsWord r)
    (hc : IsWord c) (ha : IsWord a) (hls : ls.contains c = true) :
    Shape.do_with.try_match r ls (c ++ str " " ++ r ++ str " " ++ a) =
      some ⟨r, c, [a]⟩ := by
  obtain ⟨hrne, hrw⟩ := hr
  obtain ⟨hcne, hcw⟩ := hc
  obtain ⟨hane, haw⟩ := ha
  have hin : c ++ str " " ++ r ++ str " " ++ a =
      c ++ ' ' :: (r ++ ' ' :: (a ++ [])) := by
    simp [str]
  have hba2 : Boundary isSp (a ++ []) := by
    rw [List.append_nil]
    exact boundary_isSp_word a haw
  have hbr2 : Boundary isSp (r ++ ' ' :: (a ++ [])) :=
    boundary_append_word isSp r _ hrne hrw isW_isSp
  -- the trailing part of the pattern fails on "r a" (no room for a
  -- second space after the argument word)
  have hT2fail : ∀ pos, reMatch
      (.seq (.grp .self (.plusC isW)) (.seq (.plusC isSp)
        (.seq (.grp (.num 0) (.plusC isSpW)) (.seq (.opt (.cls isDotBang))
          (.seq .eol .eps))))) pos (a ++ []) = [] := by
    intro pos
    rw [reMatch_seq_flat, List.flatMap_eq_nil_iff]
    intro x hx
    obtain ⟨y, hy, hxy⟩ := grp_mem hx
    obtain ⟨k, hk0, hkle, hrest⟩ := plusC_mem haw (boundary_nil isW) hy
    rw [List.map_eq_nil_iff]
    have hx2 : x.2.2 = a.drop k ++ [] := by
      rw [hxy]
      exact hrest
    rcases Nat.lt_or_ge k a.length with hklt | hge
    · rw [hx2, List.drop_eq_getElem_cons hklt, List.cons_append]
      exact seq_nil_left
        (plusC_headfail (isW_isSp _ (haw _ (List.getElem_mem hklt))))
    · have hk : k = a.length := Nat.le_antisymm hkle hge
      rw [hx2, hk, List.drop_length, List.nil_append]
      exact seq_nil_left (plusC_nil isSp _)
  -- the whole tail after the optional group fails on "r a"
  have hRESTfail : ∀ pos, reMatch
      (.seq (.grp .cmd (.plusC isW)) (.seq (.plusC isSp)
        (.seq (.grp .self (.plusC isW)) (.seq (.plusC isSp)
          (.seq (.grp (.num 0) (.plusC isSpW)) (.seq (.opt (.cls isDotBang))
            (.seq .eol .eps))))))) pos (r ++ ' ' :: (a ++ [])) = [] := by
    intro pos
    rw [reMatch_seq_flat, List.flatMap_eq_nil_iff]
    intro x hx
    obtain ⟨y, hy, hxy⟩ := grp_mem hx
    have hbr : Boundary isW (' ' :: (a ++ [])) := boundary_cons _ _ _ (by decide)
    obtain ⟨k, hk0, hkle, hrest⟩ := plusC_mem hrw hbr hy
    rw [List.map_eq_nil_iff]
    have hx2 : x.2.2 = r.drop k ++ ' ' :: (a ++ []) := by
      rw [hxy]
      exact hrest
    rcases Nat.lt_or_ge k r.length with hklt | hge
    · rw [hx2, List.drop_eq_getElem_cons hklt, List.cons_append]
      exact seq_nil_left
        (plusC_headfail (isW_isSp _ (hrw _ (List.getElem_mem hklt))))
    · have hk : k = r.length := Nat.le_antisymm hkle hge
      rw [hx2, hk, List.drop_length, List.nil_append]
      rw [reMatch_seq_flat]
      rw [plusC_single isSp ' ' (a ++ []) _ (by decide) hba2]
      simp only [List.flatMap_cons, List.flatMap_nil]
      rw [hT2fail]
      rfl
  -- every result of the leading optional group leaves exactly "r a"
  have hPrest : ∀ x ∈ reMatch
      (.seq .bol (.seq (.plusC isW) (.seq (.plusC isSp) .eps))) 0
      (c ++ ' ' :: (r ++ ' ' :: (a ++ []))),
      x.2.2 = r ++ ' ' :: (a ++ []) := by
    intro x hx
    obtain ⟨y, hy, z, hz, rfl⟩ := seq_mem hx
    rw [reMatch_bol_zero] at hy
    simp only [List.mem_singleton] at hy
    subst hy
    obtain ⟨u, hu, v, hv, rfl⟩ := seq_mem hz
    have hbc2 : Boundary isW (' ' :: (r ++ ' ' :: (a ++ []))) :=
      boundary_cons _ _ _ (by decide)
    obtain ⟨k, hk0, hkle, hrest⟩ := plusC_mem hcw hbc2 hu
    obtain ⟨s1, hs1, s2, hs2, rfl⟩ := seq_mem hv
    rcases Nat.lt_or_ge k c.length with hklt | hge
    · rw [hrest, List.drop_eq_getElem_cons hklt, List.cons_append] at hs1
      rw [plusC_headfail (isW_isSp _ (hcw _ (List.getElem_mem hklt)))] at hs1
      exact absurd hs1 (List.not_mem_nil _)
    · have hk : k = c.length := Nat.le_antisymm hkle hge
      rw [hrest, hk, List.drop_length, List.nil_append] at hs1
      rw [plusC_single isSp ' ' (r ++ ' ' :: (a ++ [])) _ (by decide) hbr2] at hs1
      simp only [List.mem_singleton] at hs1
      subst hs1
      simp only [reMatch, List.mem_singleton] at hs2
      subst hs2
      rfl
  -- the without-prefix parse succeeds greedily on the whole input
  have hsucc :=
    head_seq (head_grp_plusC .cmd isW c (' ' :: (r ++ ' ' :: (a ++ []))) 0
        hcne hcw (boundary_cons _ _ _ (by decide)))
      (head_seq (head_plusC isSp [' '] (r ++ ' ' :: (a ++ [])) _ (by simp)
          (by decide) hbr2)
        (head_seq (head_grp_plusC .self isW r (' ' :: (a ++ [])) _ hrne hrw
            (boundary_cons _ _ _ (by decide)))
          (head_seq (head_plusC isSp [' '] (a ++ []) _ (by simp) (by decide)
              hba2)
            (head_seq (head_grp_plusC (.num 0) isSpW a [] _ hane
                (fun ch hch => isW_isSpW ch (haw ch hch)) (boundary_nil isSpW))
              (head_seq (opt_cls_nil isDotBang _)
                (head_seq (head_eol _) (head_eps _ [])))))))
  have hfail1 : (reMatch
      (.seq .bol (.seq (.plusC isW) (.seq (.plusC isSp) .eps))) 0
      (c ++ ' ' :: (r ++ ' ' :: (a ++ [])))).flatMap
      (fun x => (reMatch
        (.seq (.grp .cmd (.plusC isW)) (.seq (.plusC isSp)
          (.seq (.grp .self (.plusC isW)) (.seq (.plusC isSp)
            (.seq (.grp (.num 0) (.plusC isSpW)) (.seq (.opt (.cls isDotBang))
              (.seq .eol .eps))))))) x.2.1 x.2.2).map
        (fun y => (x.1 ++ y.1, y.2.1, y.2.2))) = [] := by
    rw [List.flatMap_eq_nil_iff]
    intro x hx
    rw [hPrest x hx, hRESTfail x.2.1]
    rfl
  have hfullHead := head_seq_opt_skip hfail1 hsucc
  have hcap := reCaptures_of_head hfullHead
  have hcap2 : reCaptures
      (.seq (.opt (.seq .bol (.seq (.plusC isW) (.seq (.plusC isSp) .eps))))
        (.seq (.grp .cmd (.plusC isW)) (.seq (.plusC isSp)
          (.seq (.grp .self (.plusC isW)) (.seq (.plusC isSp)
            (.seq (.grp (.num 0) (.plusC isSpW)) (.seq (.opt (.cls isDotBang))
              (.seq .eol .eps))))))))
      (c ++ ' ' :: (r ++ ' ' :: (a ++ []))) =
      some [(.cmd, c), (.self, r), (.num 0, a)] := by
    rw [hcap]
    simp
  rw [hin]
  simp only [Shape.try_match, Shape.do_with, tryMatch, rcat, List.foldr]
  rw [hcap2]
  have hmem : c ∈ ls := List.mem_of_elem_eq_true hls
  simp [capsFind, hmem, collectArgs, collectArgsGo]

/-- C8 counterexample: for the `do_with` shape the argument class
`[ \w]+` admits spaces, yet the string `"give topy fresh water"` —
formatted from referent `"topy"`, label `"give"` and the argument
`"fresh water"` according to that syntax — does not round-trip: the
greedy optional leading-word group consumes `"give "`, the match
captures `self = "fresh"`, the referent filter rejects it, and with no
further pattern the shape reports no match instead of recovering the
triple. -/
theorem c8_counterexample :
    Shape.do_with.try_match (str "topy") [str "give"]
      (str "give topy fresh water") = none := by
  decide

/-- C8 (amended): for every supported shape, a string formatted from a
known referent, command label, and arguments according to the shape's
primary documented spelling round-trips through the matcher to recover
exactly that referent, label, and argument sequence, provided referent,
label and each argument are single words (nonempty strings of word
characters).  (The restriction is forced by the counterexample: the
`do_with` argument syntax admits spaces, but a multi-word argument is
mis-parsed and rejected.) -/
theorem c8_roundtrip_amended (r c a b : Str) (ls : List Str) (hr : IsWord r)
    (hc : IsWord c) (ha : IsWord a) (hb : IsWord b)
    (hls : ls.contains c = true) :
    Shape.order.try_match r ls (r ++ str ", " ++ c) = some ⟨r, c, []⟩ ∧
    Shape.unary_order.try_match r ls (r ++ str ", " ++ c ++ str " " ++ a) =
      some ⟨r, c, [a]⟩ ∧
    Shape.invoke.try_match r ls (r ++ str "(" ++ c ++ str ")") =
      some ⟨r, c, []⟩ ∧
    Shape.unary_invoke.try_match r ls
      (r ++ str "." ++ c ++ str "(" ++ a ++ str ")") = some ⟨r, c, [a]⟩ ∧
    Shape.binary_invoke.try_match r ls
      (r ++ str "." ++ c ++ str "(" ++ a ++ str ", " ++ b ++ str ")") =
      some ⟨r, c, [a, b]⟩ ∧
    Shape.do_with.try_match r ls (c ++ str " " ++ r ++ str " " ++ a) =
      some ⟨r, c, [a]⟩ :=
  ⟨order_rt r c ls hr hc hls,
    unary_order_rt r c a ls hr hc ha hls,
    invoke_rt r c ls hr hc hls,
    unary_invoke_rt r c a ls hr hc ha hls,
    binary_invoke_rt r c a b ls hr hc ha hb hls,
    do_with_rt r c a ls hr hc ha hls⟩

/-- Witness for C8 (amended) at referent `"topy"`, label `"sit"`,
arguments `"x"` and `"y"`. -/
theorem c8_roundtrip_amended_witness :
    Shape.order.try_match (str "topy") [str "sit"]
      (str "topy" ++ str ", " ++ str "sit") =
      some ⟨str "topy", str "sit", []⟩ ∧
    Shape.unary_order.try_match (str "topy") [str "sit"]
      (str "topy" ++ str ", " ++ str "sit" ++ str " " ++ str "x") =
      some ⟨str "topy", str "sit", [str "x"]⟩ ∧
    Shape.invoke.try_match (str "topy") [str "sit"]
      (str "topy" ++ str "(" ++ str "sit" ++ str ")") =
      some ⟨str "topy", str "sit", []⟩ ∧
    Shape.unary_invoke.try_match (str "topy") [str "sit"]
      (str "topy" ++ str "." ++ str "sit" ++ str "(" ++ str "x" ++ str ")") =
      some ⟨str "topy", str "sit", [str "x"]⟩ ∧
    Shape.binary_invoke.try_match (str "topy") [str "sit"]
      (str "topy" ++ str "." ++ str "sit" ++ str "(" ++ str "x" ++ str ", " ++
        str "y" ++ str ")") =
      some ⟨str "topy", str "sit", [str "x", str "y"]⟩ ∧
    Shape.do_with.try_match (str "topy") [str "sit"]
      (str "sit" ++ str " " ++ str "topy" ++ str " " ++ str "x") =
      some ⟨str "topy", str "sit", [str "x"]⟩ :=
  c8_roundtrip_amended (str "topy") (str "sit") (str "x") (str "y")
    [str "sit"] ⟨by decide, by decide⟩ ⟨by decide, by decide⟩
    ⟨by decide, by decide⟩ ⟨by decide, by decide⟩ (by decide)
